import Mathlib

/-!
Shallow embedding of `lib/alloc_page.c` from kvm-unit-tests: a binary-buddy
physical page allocator organised per memory area, with per-page metadata
bytes, one freelist per power-of-two order, split/coalesce logic and a
single-frame reservation mechanism.

Modelling conventions:
* machine integers are `Nat`; every value actually stored in a metadata byte
  by the C code is below 256, so no wrap-around modelling is needed there;
* C pointers are virtual addresses; the physical-to-virtual map (collaborator
  interface, spec section 6.2) is the bijection `addr = pfn * PAGE_SIZE`;
* an intrusive circular doubly-linked freelist is modelled as the `List` of
  header PFNs it holds, in order from the sentinel; `list_add` prepends,
  `list_remove` erases the node from the (unique) list holding it;
* an `assert` that fails, in the C a fatal panic, is modelled as `none`;
  every operation returns `Option` (`none` = assertion failure / panic);
* C `while` loops that are not structurally decreasing are run on explicit
  fuel chosen at least as large as the bound the C code's own assertions put
  on the number of iterations (the fuel-out case also returns `none`).
-/

namespace AllocPage

/-- PAGE_SHIFT from asm/page.h (x86: 4 KiB pages). -/
def PAGE_SHIFT : Nat := 12

/-- PAGE_SIZE = 1 << PAGE_SHIFT. -/
def PAGE_SIZE : Nat := 4096

/-- BITS_PER_LONG on a 64-bit target. -/
def BITS_PER_LONG : Nat := 64

/-- NLISTS = BITS_PER_LONG - PAGE_SHIFT (= 52): one freelist per order. -/
def NLISTS : Nat := BITS_PER_LONG - PAGE_SHIFT

/-- Modelled from the spec: MAX_AREAS comes from asm/memory_areas.h, which is
not under src/; the spec only says it is a small constant at most 8. -/
def MAX_AREAS : Nat := 8

/-- Low 6 bits of a page state byte: the block order. -/
def ORDER_MASK : Nat := 0x3f

/-- Bit 6 of a page state byte: the frame belongs to an allocated block. -/
def ALLOC_MASK : Nat := 0x40

/-- Bit 7 of a page state byte: the frame is reserved (special). -/
def SPECIAL_MASK : Nat := 0x80

/-- Modelled from the spec (section 6.2): `pfn_to_virt` is the bijective
physical-to-pointer map, `addr = pfn * PAGE_SIZE`. -/
def pfn_to_virt (pfn : Nat) : Nat := pfn * PAGE_SIZE

/-- Modelled from the spec (section 6.2): inverse direction of the map. -/
def virt_to_pfn (addr : Nat) : Nat := addr / PAGE_SIZE

/-- struct mem_area: one memory area. `page_states` is indexed by the offset
`pfn - base` (one metadata byte per usable frame); `states_pfn` is the PFN
where the metadata table itself starts (`virt_to_pfn(a->page_states)` in C);
`freelists k` is the list of header PFNs linked into the order-`k` freelist. -/
structure mem_area where
  states_pfn : Nat
  base : Nat
  top : Nat
  page_states : Nat → Nat
  freelists : Nat → List Nat

/-- The global allocator state: the `areas` table and the bitmask of
initialised areas.  (The spinlock serialises all public operations; each
model operation is one critical section.) -/
structure AllocState where
  areas : Nat → mem_area
  areas_mask : Nat

/-- IS_ALIGNED_ORDER(x, order) ≡ x mod 2^order == 0. -/
abbrev is_aligned_order (x order : Nat) : Prop := x % 2 ^ order = 0

/-- area_contains_pfn: pfn falls anywhere in the area, metadata included. -/
abbrev area_contains_pfn (a : mem_area) (pfn : Nat) : Prop :=
  a.states_pfn ≤ pfn ∧ pfn < a.top

/-- usable_area_contains_pfn: pfn falls in the usable range [base, top). -/
abbrev usable_area_contains_pfn (a : mem_area) (pfn : Nat) : Prop :=
  a.base ≤ pfn ∧ pfn < a.top

/-- memset over metadata offsets [lo, lo+len) with byte v. -/
def pstate_write (ps : Nat → Nat) (lo len v : Nat) : Nat → Nat :=
  fun j => if lo ≤ j ∧ j < lo + len then v else ps j

/-- In-place `&= m` over metadata offsets [lo, lo+len). -/
def pstate_and (ps : Nat → Nat) (lo len m : Nat) : Nat → Nat :=
  fun j => if lo ≤ j ∧ j < lo + len then ps j &&& m else ps j

/-- Replace freelist k by l, leaving the other freelists alone. -/
def fl_update (fl : Nat → List Nat) (k : Nat) (l : List Nat) : Nat → List Nat :=
  fun j => if j = k then l else fl j

/-- list_remove(node): unlink the node from the (unique) freelist holding it. -/
def fl_remove (fl : Nat → List Nat) (p : Nat) : Nat → List Nat :=
  fun k => (fl k).erase p

/-- Store one metadata byte: `a->page_states[i] = v`. -/
def area_set_byte (a : mem_area) (i v : Nat) : mem_area :=
  { a with page_states := fun q => if q = i then v else a.page_states q }

/-- Store area descriptor i (the C code mutates `areas[i]` in place). -/
def set_area (s : AllocState) (i : Nat) (a : mem_area) : AllocState :=
  { s with areas := fun j => if j = i then a else s.areas j }

/-- split(): split the free block of order > 0 starting at pfn into two
blocks of half the size.  All C `assert`s are modelled as `none` guards. -/
def split (a : mem_area) (pfn : Nat) : Option mem_area :=
  let idx := pfn - a.base
  let order := a.page_states idx
  if usable_area_contains_pfn a pfn then
  if order &&& 0xc0 = 0 ∧ order ≠ 0 ∧ order < NLISTS then
  if is_aligned_order pfn order then
  if usable_area_contains_pfn a (pfn + 2 ^ order - 1) then
  if ∀ i, i < 2 ^ order → a.page_states (idx + i) = order then
    let fl1 := fl_remove a.freelists pfn
    some { a with
      page_states := pstate_write a.page_states idx (2 ^ order) (order - 1)
      freelists := fl_update fl1 (order - 1)
        ((pfn + 2 ^ (order - 1)) :: pfn :: fl1 (order - 1)) }
  else none else none else none else none else none

/-- The split cascade `for (; order > sz; order--) split(a, p);` run for a
given number of iterations (the caller passes `order - sz`). -/
def split_loop (pfn : Nat) : Nat → mem_area → Option mem_area
  | 0, a => some a
  | fuel + 1, a =>
    match split a pfn with
    | none => none
    | some a1 => split_loop pfn fuel a1

/-- The freelist search loop of page_memalign_order: the first order in
[start, NLISTS) whose freelist is non-empty. -/
def find_nonempty (a : mem_area) (start : Nat) : Option Nat :=
  (List.range NLISTS).find? fun k => decide (start ≤ k) && !(a.freelists k).isEmpty

/-- page_memalign_order(a, al, sz): returns the C function's return value
(0 is the NULL pointer) together with the area after mutation. -/
def page_memalign_order (a : mem_area) (al sz : Nat) : Option (Nat × mem_area) :=
  if al < NLISTS ∧ sz < NLISTS then
    match find_nonempty a (if sz > al then sz else al) with
    | none => some (0, a)
    | some k =>
      let p := (a.freelists k).headD 0
      match split_loop p (k - sz) a with
      | none => none
      | some a1 =>
        some (pfn_to_virt p,
          { a1 with
            page_states :=
              pstate_write a1.page_states (p - a1.base) (2 ^ sz) (ALLOC_MASK ||| sz)
            freelists := fl_remove a1.freelists p })
  else none

/-- get_area(pfn): index of the first initialised area whose usable range
contains pfn. -/
def get_area (s : AllocState) (pfn : Nat) : Option Nat :=
  (List.range MAX_AREAS).find? fun i =>
    decide (s.areas_mask &&& 2 ^ i ≠ 0) &&
    decide (usable_area_contains_pfn (s.areas i) pfn)

/-- coalesce(a, order, pfn, pfn2): try to merge two adjacent blocks.  The
returned Bool is the C return value; `none` models a failed assert. -/
def coalesce (a : mem_area) (order pfn pfn2 : Nat) : Option (Bool × mem_area) :=
  if is_aligned_order pfn order ∧ is_aligned_order pfn2 order then
  if pfn2 = pfn + 2 ^ order then
    if ¬ usable_area_contains_pfn a pfn ∨
       ¬ usable_area_contains_pfn a (pfn2 + 2 ^ order - 1) then some (false, a)
    else
      let first := pfn - a.base
      let second := pfn2 - a.base
      if a.page_states first ≠ order ∨ a.page_states second ≠ order then
        some (false, a)
      else if ∀ i, i < 2 * 2 ^ order → a.page_states (first + i) = order then
        let fl1 := fl_remove (fl_remove a.freelists pfn2) pfn
        some (true, { a with
          page_states := pstate_write a.page_states first (2 * 2 ^ order) (order + 1)
          freelists := fl_update fl1 (order + 1) (pfn :: fl1 (order + 1)) })
      else none
  else none else none

/-- The do/while coalescing loop of _free_pages.  `p` is the metadata offset
of the originally freed frame (fixed across iterations, as in the C code);
`pfn` is the current candidate header.  The C loop performs at most one
successful coalesce per metadata order value, so fuel 65 is enough; fuel
exhaustion is modelled as `none`. -/
def free_loop (p : Nat) : Nat → Nat → mem_area → Option mem_area
  | 0, _, _ => none
  | fuel + 1, pfn, a =>
    let order := a.page_states p &&& ORDER_MASK
    let pfn1 := if pfn % 2 ^ (order + 1) = 0 then pfn else pfn - 2 ^ order
    match coalesce a order pfn1 (pfn1 + 2 ^ order) with
    | none => none
    | some (false, a1) => some a1
    | some (true, a1) => free_loop p fuel pfn1 a1

/-- _free_pages(mem): free the block starting at virtual address mem
(0 = NULL = no-op), then coalesce as much as possible. -/
def _free_pages (s : AllocState) (mem : Nat) : Option AllocState :=
  if mem = 0 then some s else
  if mem % PAGE_SIZE = 0 then
    let pfn := virt_to_pfn mem
    match get_area s pfn with
    | none => none
    | some ai =>
      let a := s.areas ai
      let p := pfn - a.base
      let order := a.page_states p &&& ORDER_MASK
      if a.page_states p = (order ||| ALLOC_MASK) then
      if order < NLISTS then
      if is_aligned_order pfn order then
      if usable_area_contains_pfn a (pfn + 2 ^ order - 1) then
      if ∀ i, i < 2 ^ order → a.page_states (p + i) = (ALLOC_MASK ||| order) then
        let a1 := { a with
          page_states := pstate_and a.page_states p (2 ^ order) 0xbf
          freelists := fl_update a.freelists order (pfn :: a.freelists order) }
        match free_loop p 65 pfn a1 with
        | none => none
        | some a2 => some (set_area s ai a2)
      else none else none else none else none else none
  else none

/-- free_pages: public entry point (lock acquire/release elided). -/
def free_pages (s : AllocState) (mem : Nat) : Option AllocState :=
  _free_pages s mem

/-- The `while (a->page_states[i])` split-down loop of _reserve_one_page.
`pfn & GENMASK_ULL(63, k)` clears the low k bits of pfn, which for
pfn < 2^64 is `pfn / 2^k * 2^k`.  The block order strictly decreases each
iteration and split's asserts bound it below 64, so fuel 64 is enough. -/
def reserve_split_loop (pfn : Nat) : Nat → mem_area → Option mem_area
  | 0, _ => none
  | fuel + 1, a =>
    if a.page_states (pfn - a.base) = 0 then some a
    else
      match split a
          (pfn / 2 ^ a.page_states (pfn - a.base) * 2 ^ a.page_states (pfn - a.base)) with
      | none => none
      | some a1 => reserve_split_loop pfn fuel a1

/-- _reserve_one_page(pfn): the returned Bool is true for C return value 0
(success) and false for -1 (recoverable failure). -/
def _reserve_one_page (s : AllocState) (pfn : Nat) : Option (Bool × AllocState) :=
  match get_area s pfn with
  | none => some (false, s)
  | some ai =>
    let a := s.areas ai
    let i := pfn - a.base
    if a.page_states i &&& (ALLOC_MASK ||| SPECIAL_MASK) ≠ 0 then some (false, s)
    else
      match reserve_split_loop pfn 64 a with
      | none => none
      | some a1 =>
        some (true, set_area s ai (area_set_byte a1 i SPECIAL_MASK))

/-- _unreserve_one_page(pfn): assert the frame is SPECIAL, rewrite its byte
to ALLOC_MASK (allocated order 0), then free it. -/
def _unreserve_one_page (s : AllocState) (pfn : Nat) : Option AllocState :=
  match get_area s pfn with
  | none => none
  | some ai =>
    let a := s.areas ai
    let i := pfn - a.base
    if a.page_states i = SPECIAL_MASK then
      _free_pages (set_area s ai (area_set_byte a i ALLOC_MASK)) (pfn_to_virt pfn)
    else none

/-- The forward loop of reserve_pages: try `_reserve_one_page(pfn + j)` for
j = 0, 1, ....  Returns the index of the first failure (= cnt when all
succeeded) together with the state reached. -/
def reserve_upto (s : AllocState) (pfn : Nat) : Nat → Option (Nat × AllocState)
  | 0 => some (0, s)
  | n + 1 =>
    match reserve_upto s pfn n with
    | none => none
    | some (i, s1) =>
      if i < n then some (i, s1)
      else
        match _reserve_one_page s1 (pfn + n) with
        | none => none
        | some (true, s2) => some (n + 1, s2)
        | some (false, s2) => some (n, s2)

/-- `_unreserve_one_page(pfn + j)` for j = 0, ..., cnt-1 in ascending order
(the body of both the rollback loop of reserve_pages and unreserve_pages). -/
def unreserve_range (s : AllocState) (pfn : Nat) : Nat → Option AllocState
  | 0 => some s
  | n + 1 =>
    match unreserve_range s pfn n with
    | none => none
    | some s1 => _unreserve_one_page s1 (pfn + n)

/-- reserve_pages(addr, n): reserve the n frames starting at the page-aligned
address addr, rolling back on the first failure.  The C function ends with
`return -!n;` where n was zeroed on the rollback path. -/
def reserve_pages (s : AllocState) (addr n : Nat) : Option (Int × AllocState) :=
  if addr % PAGE_SIZE = 0 then
    let pfn := addr / 2 ^ PAGE_SHIFT
    match reserve_upto s pfn n with
    | none => none
    | some (i, s1) =>
      if i < n then
        match unreserve_range s1 pfn i with
        | none => none
        | some s2 => some (-1, s2)
      else some (if n = 0 then -1 else 0, s1)
  else none

/-- unreserve_pages(addr, n). -/
def unreserve_pages (s : AllocState) (addr n : Nat) : Option AllocState :=
  if addr % PAGE_SIZE = 0 then unreserve_range s (addr / 2 ^ PAGE_SHIFT) n
  else none

/-- The area loop of page_memalign_order_area, iterating over the area
indices in ascending order.  `mask` is already `area & areas_mask`.  When an
area's page_memalign_order returns NULL it has not modified the area, so the
state is carried over unchanged, as in the C code (which mutates in place). -/
def pmoa_loop (mask ord al : Nat) : List Nat → AllocState → Option (Nat × AllocState)
  | [], s => some (0, s)
  | i :: rest, s =>
    if mask &&& 2 ^ i ≠ 0 then
      match page_memalign_order (s.areas i) ord al with
      | none => none
      | some (res, a1) =>
        if res ≠ 0 then some (res, set_area s i a1)
        else pmoa_loop mask ord al rest s
    else pmoa_loop mask ord al rest s

/-- page_memalign_order_area(area, ord, al).  The u8 parameters truncate
their arguments mod 256.  Note the C call site passes (ord, al) into
page_memalign_order's parameters (al, sz) in that order. -/
def page_memalign_order_area (s : AllocState) (area ord al : Nat) : Option (Nat × AllocState) :=
  pmoa_loop (area &&& s.areas_mask) (ord % 256) (al % 256) (List.range MAX_AREAS) s

/-- alloc_pages_area(area, order): (1 << order) contiguous naturally aligned
pages. -/
def alloc_pages_area (s : AllocState) (area order : Nat) : Option (Nat × AllocState) :=
  page_memalign_order_area s area order order

/-- Modelled from the spec: `is_power_of_2` lives in a header that is not
under src/; n is a power of two iff n is nonzero and n & (n-1) == 0. -/
def is_power_of_2 (n : Nat) : Prop := n ≠ 0 ∧ n &&& (n - 1) = 0

instance (n : Nat) : Decidable (is_power_of_2 n) := by
  unfold is_power_of_2; infer_instance

/-- Modelled from the spec: PAGE_ALIGN(x) from asm/page.h rounds x up to the
next multiple of PAGE_SIZE, so PAGE_ALIGN(x) >> PAGE_SHIFT is the number of
pages needed to hold x bytes. -/
def PAGE_ALIGN (x : Nat) : Nat := (x + PAGE_SIZE - 1) / PAGE_SIZE * PAGE_SIZE

/-- Modelled from the spec (section 6.1): `get_order(n)` from bitops.h (not
under src/) is the ceiling base-2 logarithm of n: the smallest k with
n ≤ 2^k.  (64 covers every size expressible on the target.) -/
def get_order (n : Nat) : Nat :=
  (((List.range 64).find? fun k => decide (n ≤ 2 ^ k))).getD 64

/-- memalign_pages_area(area, alignment, size): byte arguments converted to
orders, then delegated.  The C call is
`page_memalign_order_area(area, size, alignment)` whose parameters are
`(area, ord, al)`. -/
def memalign_pages_area (s : AllocState) (area alignment size : Nat) :
    Option (Nat × AllocState) :=
  if is_power_of_2 alignment then
    let al := get_order (PAGE_ALIGN alignment >>> PAGE_SHIFT)
    let sz := get_order (PAGE_ALIGN size >>> PAGE_SHIFT)
    if al < NLISTS then
    if sz < NLISTS then
      page_memalign_order_area s area sz al
    else none else none
  else none

/-- table_size as computed by _page_alloc_init_area. -/
def table_size (start_pfn top_pfn : Nat) : Nat :=
  (top_pfn - start_pfn + PAGE_SIZE) / (PAGE_SIZE + 1)

/-- The inner `while (i + BIT(order) > top) { assert(order); order--; }`
of the seeding loop: structural recursion on the order being decremented;
the assert firing at order 0 is `none`. -/
def order_shrink (i top : Nat) : Nat → Option Nat
  | 0 => if top < i + 1 then none else some 0
  | o + 1 => if top < i + 2 ^ (o + 1) then order_shrink i top o else some (o + 1)

/-- The inner `while (IS_ALIGNED_ORDER(i, order+1) && (i + BIT(order+1) <=
top)) order++;` of the seeding loop, on fuel.  The loop guard forces
2^(order+1) ≤ top, so for top < 2^63 at most 63 increments happen and fuel
64 never runs out in a state the C code can reach. -/
def order_grow (i top : Nat) : Nat → Nat → Nat
  | 0, o => o
  | fuel + 1, o =>
    if i % 2 ^ (o + 1) = 0 ∧ i + 2 ^ (o + 1) ≤ top then order_grow i top fuel (o + 1)
    else o

/-- The seeding loop `for (i = a->base; i < a->top; i += 1ull << order)` of
_page_alloc_init_area.  Each iteration advances i by at least one, so fuel
top - base + 1 is enough. -/
def init_loop : Nat → Nat → Nat → mem_area → Option mem_area
  | 0, _, _, _ => none
  | fuel + 1, i, order, a =>
    if i < a.top then
      match order_shrink i a.top order with
      | none => none
      | some o1 =>
        let o2 := order_grow i a.top 64 o1
        if o2 < NLISTS then
          init_loop fuel (i + 2 ^ o2) o2
            { a with
              page_states := pstate_write a.page_states (i - a.base) (2 ^ o2) o2
              freelists := fl_update a.freelists o2 (i :: a.freelists o2) }
        else none
    else some a

/-- _page_alloc_init_area(n, start_pfn, top_pfn).  The fresh metadata table
is modelled as the all-zero byte map; the seeding loop overwrites every
byte of the usable range before the area becomes visible, and no operation
reads a metadata byte outside the usable range. -/
def _page_alloc_init_area (s : AllocState) (n start_pfn top_pfn : Nat) :
    Option AllocState :=
  if n < MAX_AREAS then
  if s.areas_mask &&& 2 ^ n = 0 then
  if start_pfn < top_pfn then
  if 4 < top_pfn - start_pfn then
  if top_pfn < 2 ^ (BITS_PER_LONG - PAGE_SHIFT) then
    let ts := table_size start_pfn top_pfn
    let a : mem_area :=
      { states_pfn := start_pfn, base := start_pfn + ts, top := top_pfn
        page_states := fun _ => 0, freelists := fun _ => [] }
    if top_pfn - a.base ≤ (a.base - start_pfn) * PAGE_SIZE then
    if ∀ i, i < MAX_AREAS → s.areas_mask &&& 2 ^ i ≠ 0 →
        ¬ area_contains_pfn (s.areas i) start_pfn ∧
        ¬ area_contains_pfn (s.areas i) (top_pfn - 1) ∧
        ¬ area_contains_pfn a ((s.areas i).states_pfn) ∧
        ¬ area_contains_pfn a ((s.areas i).top - 1) then
      match init_loop (top_pfn - a.base + 1) a.base 0 a with
      | none => none
      | some a1 =>
        some { areas := fun j => if j = n then a1 else s.areas j
               areas_mask := s.areas_mask ||| 2 ^ n }
    else none else none
  else none else none else none else none else none

/-! ## State predicates used by the claims -/

/-- A free block of order k headed at PFN p: wholly inside the usable range,
naturally aligned, and all 2^k metadata bytes equal to k (a byte equal to
k < 64 has neither ALLOC_MASK nor SPECIAL_MASK set). -/
abbrev free_block_at (a : mem_area) (k p : Nat) : Prop :=
  a.base ≤ p ∧ p + 2 ^ k ≤ a.top ∧ p % 2 ^ k = 0 ∧
  ∀ i, i < 2 ^ k → a.page_states (p - a.base + i) = k

/-- No pair of adjacent free buddies of equal order exists in the area:
there is no order k and no PFN p aligned to 2^(k+1) such that the blocks
headed at p and at p + 2^k are both free blocks of order k.  (Any such p
satisfies p < top because a free block lies inside the usable range, and
orders are below NLISTS by definition, so the bounded quantifiers lose no
generality.) -/
abbrev no_buddy_pairs (a : mem_area) : Prop :=
  ∀ k, k < NLISTS → ∀ p, p < a.top →
    ¬(p % 2 ^ (k + 1) = 0 ∧ free_block_at a k p ∧ free_block_at a k (p + 2 ^ k))

instance (a : mem_area) : Decidable (no_buddy_pairs a) :=
  inferInstance

/-- Any pair of adjacent equal-order free buddies involves the given block:
the pair's order is K and one of its two blocks is headed at bK.  (Bounded
like no_buddy_pairs; the bounds lose no generality.) -/
def only_pair (a : mem_area) (K bK : Nat) : Prop :=
  ∀ k, k < NLISTS → ∀ p, p < a.top →
    p % 2 ^ (k + 1) = 0 → free_block_at a k p → free_block_at a k (p + 2 ^ k) →
    k = K ∧ (p = bK ∨ p + 2 ^ k = bK)

/-- Every entry of an order-k freelist is aligned to 2^k (part of the
freelist invariant of spec section 8). -/
abbrev aligned_freelists (s : AllocState) : Prop :=
  ∀ i, i < MAX_AREAS → ∀ k, k < NLISTS →
    ∀ p ∈ (s.areas i).freelists k, p % 2 ^ k = 0

/-- Geometry (mask, base, top of every slot) shared by two states. -/
def same_geom (s s' : AllocState) : Prop :=
  s'.areas_mask = s.areas_mask ∧
  (∀ i, (s'.areas i).base = (s.areas i).base) ∧
  (∀ i, (s'.areas i).top = (s.areas i).top)

/-- The metadata byte governing pfn, looked up through get_area. -/
def pstate_at (s : AllocState) (pfn : Nat) : Option Nat :=
  (get_area s pfn).map fun ai => (s.areas ai).page_states (pfn - (s.areas ai).base)

/-! ## Concrete fixtures -/

/-- An uninitialised area slot (all fields zero). -/
def emptyArea : mem_area :=
  { states_pfn := 0, base := 0, top := 0
    page_states := fun _ => 0, freelists := fun _ => [] }

/-- The all-empty allocator state. -/
def S0 : AllocState := { areas := fun _ => emptyArea, areas_mask := 0 }

/-- A pristine area: 16 usable frames [0x100, 0x110), one free order-4
block (metadata table at PFN 0xff). -/
def tA : mem_area :=
  { states_pfn := 0xff, base := 0x100, top := 0x110
    page_states := fun i => if i < 16 then 4 else 0
    freelists := fun k => if k = 4 then [0x100] else [] }

/-- State with `tA` as area 0. -/
def tS : AllocState :=
  { areas := fun i => if i = 0 then tA else emptyArea, areas_mask := 1 }

/-- An area of 16 usable frames [0x100, 0x110) where frame 0x100 is a free
order-0 block, frame 0x101 is allocated at order 0, and the rest is free as
one order-1, one order-2 and one order-3 block. -/
def uA : mem_area :=
  { states_pfn := 0xff, base := 0x100, top := 0x110
    page_states := fun i =>
      if i = 0 then 0 else if i = 1 then ALLOC_MASK else
      if i < 4 then 1 else if i < 8 then 2 else if i < 16 then 3 else 0
    freelists := fun k =>
      if k = 0 then [0x100] else if k = 1 then [0x102] else
      if k = 2 then [0x104] else if k = 3 then [0x108] else [] }

/-- State with `uA` as area 0. -/
def uS : AllocState :=
  { areas := fun i => if i = 0 then uA else emptyArea, areas_mask := 1 }

/-! ## Greedy decomposition: spec-side definitions for the C6 refinement -/


def C6res : AllocState := (_page_alloc_init_area S0 0 256 272).getD S0

/-- Modelled from the spec: a block of order k fits at i below top when i is
aligned to 2^k and i + 2^k does not exceed top (the seeding loop's guard). -/
abbrev order_fits (i top k : Nat) : Prop := i % 2 ^ k = 0 ∧ i + 2 ^ k ≤ top

/-- Modelled from the spec: the greedy block order at i — the largest
order (scanning down from 63) that is aligned at i and fits below top. -/
def greedyOrderAux (i top : Nat) : Nat → Nat
  | 0 => 0
  | k + 1 => if i % 2 ^ (k + 1) = 0 ∧ i + 2 ^ (k + 1) ≤ top then k + 1
             else greedyOrderAux i top k

/-- Modelled from the spec: the maximal power-of-two block order at i. -/
def greedyOrder (i top : Nat) : Nat := greedyOrderAux i top 63

/-- Modelled from the spec: the unique greedy decomposition of [i, top)
into maximal aligned power-of-two blocks, as (header, order) pairs. -/
def greedyDecomp : Nat → Nat → Nat → List (Nat × Nat)
  | 0, _, _ => []
  | fuel + 1, i, top =>
    if i < top then
      (i, greedyOrder i top) :: greedyDecomp fuel (i + 2 ^ greedyOrder i top) top
    else []

/-- Seeding a list of blocks: write each block's metadata bytes and prepend
its header to the freelist of its order (one iteration of the seeding loop
of _page_alloc_init_area per block). -/
def seed (a : mem_area) : List (Nat × Nat) → mem_area
  | [] => a
  | bk :: rest =>
    seed { a with
      page_states := pstate_write a.page_states (bk.1 - a.base) (2 ^ bk.2) bk.2
      freelists := fl_update a.freelists bk.2 (bk.1 :: a.freelists bk.2) } rest

/-! ## Helper lemmas -/

/-- The area loop never allocates anything when the effective mask is 0. -/
theorem pmoa_loop_zero_mask (ord al : Nat) (l : List Nat) (s : AllocState) :
    pmoa_loop 0 ord al l s = some (0, s) := by
  induction l with
  | nil => rfl
  | cons i rest ih => simp [pmoa_loop, Nat.zero_and, ih]

/-- NLISTS evaluates to 52. -/
theorem NLISTS_eq : NLISTS = 52 := rfl

/-- If every freelist of order in [max(al,sz), NLISTS) is empty, the search
loop fails and page_memalign_order returns NULL with the area untouched. -/
theorem page_memalign_order_oom (a : mem_area) (al sz : Nat)
    (hal : al < NLISTS) (hsz : sz < NLISTS)
    (h : ∀ j, j < NLISTS → (if sz > al then sz else al) ≤ j → a.freelists j = []) :
    page_memalign_order a al sz = some (0, a) := by
  have hfind : find_nonempty a (if sz > al then sz else al) = none := by
    unfold find_nonempty
    apply List.find?_eq_none.mpr
    intro j hj
    simp only [List.mem_range] at hj
    by_cases hs : (if sz > al then sz else al) ≤ j
    · simp [h j hj hs]
    · simp [hs]
  unfold page_memalign_order
  rw [if_pos ⟨hal, hsz⟩, hfind]

/-- The area loop returns NULL with the state untouched when every selected
area's page_memalign_order does. -/
theorem pmoa_loop_oom (mask ord al : Nat) (l : List Nat) (s : AllocState)
    (h : ∀ i ∈ l, mask &&& 2 ^ i ≠ 0 →
      page_memalign_order (s.areas i) ord al = some (0, s.areas i)) :
    pmoa_loop mask ord al l s = some (0, s) := by
  induction l with
  | nil => rfl
  | cons i rest ih =>
    unfold pmoa_loop
    by_cases hb : mask &&& 2 ^ i ≠ 0
    · rw [if_pos hb, h i (by simp) hb]
      simp only [ne_eq, not_true_eq_false, reduceIte]
      exact ih fun j hj hbj => h j (by simp [hj]) hbj
    · rw [if_neg hb]
      exact ih fun j hj hbj => h j (by simp [hj]) hbj

/-- `headD 0` of a non-empty list is one of its elements. -/
theorem headD_mem {l : List Nat} (h : l ≠ []) : l.headD 0 ∈ l := by
  cases l with
  | nil => exact absurd rfl h
  | cons a t => simp

/-- A non-NULL return of page_memalign_order is the virtual address of the
head of some freelist of order ≥ max(al, sz) of the input area. -/
theorem page_memalign_order_success_src (a : mem_area) (al sz res : Nat)
    (a' : mem_area) (h : page_memalign_order a al sz = some (res, a'))
    (hres : res ≠ 0) :
    ∃ j, j < NLISTS ∧ (if sz > al then sz else al) ≤ j ∧
      ∃ p, p ∈ a.freelists j ∧ res = pfn_to_virt p := by
  unfold page_memalign_order at h
  by_cases hb : al < NLISTS ∧ sz < NLISTS
  · rw [if_pos hb] at h
    cases hfind : find_nonempty a (if sz > al then sz else al) with
    | none =>
      rw [hfind] at h
      simp only [Option.some.injEq, Prod.mk.injEq] at h
      exact absurd h.1.symm hres
    | some j =>
      rw [hfind] at h
      dsimp only at h
      unfold find_nonempty at hfind
      have hjlt : j < NLISTS := List.mem_range.mp (List.mem_of_find?_eq_some hfind)
      have hpred := List.find?_some hfind
      simp only [Bool.and_eq_true, decide_eq_true_eq, Bool.not_eq_true',
        List.isEmpty_eq_false] at hpred
      cases hsplit : split_loop ((a.freelists j).headD 0) (j - sz) a with
      | none => rw [hsplit] at h; exact absurd h (by simp)
      | some a1 =>
        rw [hsplit] at h
        simp only [Option.some.injEq, Prod.mk.injEq] at h
        exact ⟨j, hjlt, hpred.1, (a.freelists j).headD 0,
          headD_mem hpred.2, h.1.symm⟩
  · rw [if_neg hb] at h
    exact absurd h (by simp)

/-- virt_to_pfn is a left inverse of pfn_to_virt. -/
theorem virt_to_pfn_pfn_to_virt (p : Nat) : virt_to_pfn (pfn_to_virt p) = p := by
  unfold virt_to_pfn pfn_to_virt PAGE_SIZE
  omega

/-- Any non-NULL result of the area loop is the address of a freelist head
of order ≥ max(al, ord) of one of the (unmodified) input areas, hence its
PFN inherits that order's alignment when the freelist invariant holds. -/
theorem pmoa_loop_aligned (mask ord al : Nat) (l : List Nat) (s : AllocState)
    (r : Nat) (s' : AllocState)
    (hl : ∀ i ∈ l, ∀ k, k < NLISTS → ∀ p ∈ (s.areas i).freelists k, p % 2 ^ k = 0)
    (h : pmoa_loop mask ord al l s = some (r, s')) :
    r = 0 ∨ ∃ j, j < NLISTS ∧ (if al > ord then al else ord) ≤ j ∧
      virt_to_pfn r % 2 ^ j = 0 := by
  induction l with
  | nil =>
    unfold pmoa_loop at h
    simp only [Option.some.injEq, Prod.mk.injEq] at h
    exact Or.inl h.1.symm
  | cons i rest ih =>
    unfold pmoa_loop at h
    by_cases hb : mask &&& 2 ^ i ≠ 0
    · rw [if_pos hb] at h
      cases hpm : page_memalign_order (s.areas i) ord al with
      | none => rw [hpm] at h; exact absurd h (by simp)
      | some ra =>
        obtain ⟨res, a1⟩ := ra
        rw [hpm] at h
        dsimp only at h
        by_cases hres : res = 0
        · rw [hres, if_neg (by simp)] at h
          exact ih (fun q hq => hl q (by simp [hq])) h
        · rw [if_pos hres] at h
          simp only [Option.some.injEq, Prod.mk.injEq] at h
          obtain ⟨j, hjlt, hjle, p, hp, hpv⟩ :=
            page_memalign_order_success_src _ _ _ _ _ hpm hres
          refine Or.inr ⟨j, hjlt, hjle, ?_⟩
          rw [← h.1, hpv, virt_to_pfn_pfn_to_virt]
          exact hl i (by simp) j hjlt p hp
    · rw [if_neg hb] at h
      exact ih (fun q hq => hl q (by simp [hq])) h

/-- C9: if no area permitted by the mask has a free block of order at least
max(alignment order, size order) — i.e. all those freelists are empty — the
allocation returns NULL and the allocator state is completely unchanged. -/
theorem C9_oom_returns_null_state_unchanged (s : AllocState) (mask ord al : Nat)
    (hord : ord < NLISTS) (hal : al < NLISTS)
    (h : ∀ i, i < MAX_AREAS → (mask &&& s.areas_mask) &&& 2 ^ i ≠ 0 →
      ∀ j, j < NLISTS → (if al > ord then al else ord) ≤ j →
      (s.areas i).freelists j = []) :
    page_memalign_order_area s mask ord al = some (0, s) := by
  have hmo : ord % 256 = ord := Nat.mod_eq_of_lt (by have := NLISTS_eq; omega)
  have hma : al % 256 = al := Nat.mod_eq_of_lt (by have := NLISTS_eq; omega)
  unfold page_memalign_order_area
  rw [hmo, hma]
  exact pmoa_loop_oom _ _ _ _ _ fun i hi hbit =>
    page_memalign_order_oom _ _ _ hord hal
      (h i (List.mem_range.mp hi) hbit)

/-- Witness for C9: requesting order 5 with alignment order 5 from `tS`,
whose only free block has order 4. -/
theorem C9_oom_returns_null_state_unchanged_witness :
    5 < NLISTS ∧
    (∀ i, i < MAX_AREAS → ((1 : Nat) &&& tS.areas_mask) &&& 2 ^ i ≠ 0 →
      ∀ j, j < NLISTS → (if 5 > 5 then 5 else 5) ≤ j →
      (tS.areas i).freelists j = []) ∧
    page_memalign_order_area tS 1 5 5 = some (0, tS) :=
  ⟨by decide, by decide,
    C9_oom_returns_null_state_unchanged tS 1 5 5 (by decide) (by decide) (by decide)⟩

/-- C8: in a state satisfying the freelist alignment invariant,
alloc_pages_area(mask, k) with k < NLISTS returns NULL or a pointer whose
PFN is divisible by 2^k. -/
theorem C8_alloc_returns_aligned (s : AllocState) (mask k r : Nat)
    (s' : AllocState) (hk : k < NLISTS) (ha : aligned_freelists s)
    (h : alloc_pages_area s mask k = some (r, s')) :
    r = 0 ∨ virt_to_pfn r % 2 ^ k = 0 := by
  have hmk : k % 256 = k := Nat.mod_eq_of_lt (by have := NLISTS_eq; omega)
  unfold alloc_pages_area page_memalign_order_area at h
  rw [hmk] at h
  rcases pmoa_loop_aligned _ _ _ _ _ _ _
      (fun i hi => ha i (List.mem_range.mp hi)) h with h0 | ⟨j, hjlt, hjle, hal⟩
  · exact Or.inl h0
  · refine Or.inr ?_
    have hkj : k ≤ j := by rw [if_neg (lt_irrefl k)] at hjle; exact hjle
    have h1 : (2 : Nat) ^ j ∣ virt_to_pfn r := Nat.dvd_of_mod_eq_zero hal
    have h2 : (2 : Nat) ^ k ∣ virt_to_pfn r := dvd_trans (pow_dvd_pow 2 hkj) h1
    exact Nat.mod_eq_zero_of_dvd h2

/-- Witness for C8: allocating order 2 from `tS` returns address 0x100000,
PFN 0x100, divisible by 4. -/
theorem C8_alloc_returns_aligned_witness :
    2 < NLISTS ∧ aligned_freelists tS ∧
    ((1048576 : Nat) = 0 ∨ virt_to_pfn 1048576 % 2 ^ 2 = 0) :=
  ⟨by decide, by decide,
    C8_alloc_returns_aligned tS 1 2 1048576 _ (by decide) (by decide) rfl⟩

/-! ## Claims -/

/-- Inversion for split. -/
theorem split_eq {a : mem_area} {p : Nat} {a' : mem_area} (h : split a p = some a') :
    usable_area_contains_pfn a p ∧
    a.page_states (p - a.base) &&& 0xc0 = 0 ∧
    a.page_states (p - a.base) ≠ 0 ∧
    a.page_states (p - a.base) < NLISTS ∧
    is_aligned_order p (a.page_states (p - a.base)) ∧
    usable_area_contains_pfn a (p + 2 ^ a.page_states (p - a.base) - 1) ∧
    (∀ i, i < 2 ^ a.page_states (p - a.base) →
      a.page_states (p - a.base + i) = a.page_states (p - a.base)) ∧
    a' = { a with
      page_states := pstate_write a.page_states (p - a.base)
        (2 ^ a.page_states (p - a.base)) (a.page_states (p - a.base) - 1)
      freelists := fl_update (fl_remove a.freelists p)
        (a.page_states (p - a.base) - 1)
        ((p + 2 ^ (a.page_states (p - a.base) - 1)) :: p ::
          fl_remove a.freelists p (a.page_states (p - a.base) - 1)) } := by
  unfold split at h
  dsimp only at h
  repeat split at h
  any_goals exact Option.noConfusion h
  injection h with h
  subst h
  rename_i h1 h2 h3 h4 h5
  exact ⟨h1, h2.1, h2.2.1, h2.2.2, h3, h4, h5, rfl⟩

/-- Bytes below 128 have no SPECIAL bit. -/
theorem clean_of_lt_128 : ∀ v, v < 128 → v &&& 128 = 0 := by decide

/-- Masking with ORDER_MASK yields a value below 64. -/
theorem and_ORDER_MASK_lt (v : Nat) : v &&& ORDER_MASK < 64 :=
  lt_of_le_of_lt Nat.and_le_right (by norm_num [ORDER_MASK])

theorem same_geom_refl (s : AllocState) : same_geom s s :=
  ⟨rfl, fun _ => rfl, fun _ => rfl⟩

theorem same_geom_trans {s1 s2 s3 : AllocState}
    (h12 : same_geom s1 s2) (h23 : same_geom s2 s3) : same_geom s1 s3 :=
  ⟨h23.1.trans h12.1, fun i => (h23.2.1 i).trans (h12.2.1 i),
   fun i => (h23.2.2 i).trans (h12.2.2 i)⟩

/-- get_area only looks at the geometry. -/
theorem get_area_congr {s s' : AllocState} (h : same_geom s s') (pfn : Nat) :
    get_area s' pfn = get_area s pfn := by
  unfold get_area
  simp only [usable_area_contains_pfn, h.1, h.2.1, h.2.2]

/-- A successful get_area result covers pfn in its usable range. -/
theorem get_area_usable {s : AllocState} {pfn ai : Nat}
    (h : get_area s pfn = some ai) :
    ai < MAX_AREAS ∧ (s.areas ai).base ≤ pfn ∧ pfn < (s.areas ai).top := by
  unfold get_area at h
  have hm := List.mem_range.mp (List.mem_of_find?_eq_some h)
  have hp := List.find?_some h
  simp only [Bool.and_eq_true, decide_eq_true_eq] at hp
  exact ⟨hm, hp.2⟩

/-- split preserves area geometry. -/
theorem split_geom {a a' : mem_area} {p : Nat} (h : split a p = some a') :
    a'.states_pfn = a.states_pfn ∧ a'.base = a.base ∧ a'.top = a.top := by
  obtain ⟨-, -, -, -, -, -, -, he⟩ := split_eq h
  rw [he]
  exact ⟨rfl, rfl, rfl⟩

/-- split never touches a byte carrying ALLOC or SPECIAL: its own guard
requires every byte of the written range to equal the (clean) block order. -/
theorem split_preserves_dirty {a a' : mem_area} {p : Nat} (h : split a p = some a')
    (q : Nat) (hd : a.page_states q &&& 0xc0 ≠ 0) :
    a'.page_states q = a.page_states q := by
  obtain ⟨-, hclean, -, -, -, -, hall, he⟩ := split_eq h
  rw [he]
  show pstate_write _ _ _ _ q = _
  simp only [pstate_write]
  by_cases hin : p - a.base ≤ q ∧ q < p - a.base + 2 ^ a.page_states (p - a.base)
  · exfalso
    have hq := hall (q - (p - a.base)) (by omega)
    rw [Nat.add_sub_cancel' hin.1] at hq
    rw [hq] at hd
    exact hd hclean
  · rw [if_neg hin]

/-- reserve_split_loop: geometry preserved and dirty bytes untouched. -/
theorem reserve_split_loop_inv {pfn : Nat} :
    ∀ fuel (a a' : mem_area), reserve_split_loop pfn fuel a = some a' →
    (a'.states_pfn = a.states_pfn ∧ a'.base = a.base ∧ a'.top = a.top) ∧
    ∀ q, a.page_states q &&& 0xc0 ≠ 0 → a'.page_states q = a.page_states q := by
  intro fuel
  induction fuel with
  | zero => intro a a' h; exact Option.noConfusion h
  | succ fuel ih =>
    intro a a' h
    unfold reserve_split_loop at h
    by_cases h0 : a.page_states (pfn - a.base) = 0
    · rw [if_pos h0] at h
      obtain rfl := Option.some.inj h
      exact ⟨⟨rfl, rfl, rfl⟩, fun _ _ => rfl⟩
    · rw [if_neg h0] at h
      cases hs : split a
          (pfn / 2 ^ a.page_states (pfn - a.base) * 2 ^ a.page_states (pfn - a.base)) with
      | none => rw [hs] at h; exact Option.noConfusion h
      | some a1 =>
        rw [hs] at h
        obtain ⟨hg1, hp1⟩ := ih a1 a' h
        obtain ⟨g1, g2, g3⟩ := split_geom hs
        refine ⟨⟨hg1.1.trans g1, hg1.2.1.trans g2, hg1.2.2.trans g3⟩, ?_⟩
        intro q hd
        have hkeep := split_preserves_dirty hs q hd
        rw [hp1 q (by rw [hkeep]; exact hd), hkeep]

/-- set_area projection. -/
theorem set_area_areas (s : AllocState) (i : Nat) (a : mem_area) (j : Nat) :
    (set_area s i a).areas j = if j = i then a else s.areas j := rfl

/-- _reserve_one_page: inversion.  On failure the state is unchanged; on
success the state differs only in the reserved frame's own byte (set to
SPECIAL_MASK) and in bytes that carried neither ALLOC nor SPECIAL. -/
theorem reserve_one_inv {s : AllocState} {pfn : Nat} {b : Bool} {s' : AllocState}
    (h : _reserve_one_page s pfn = some (b, s')) :
    same_geom s s' ∧
    (b = false → s' = s) ∧
    (b = true → ∃ ai, get_area s pfn = some ai ∧
      (s'.areas ai).page_states (pfn - (s.areas ai).base) = SPECIAL_MASK ∧
      ∀ j q, (s.areas j).page_states q &&& 0xc0 ≠ 0 →
        ¬(j = ai ∧ q = pfn - (s.areas ai).base) →
        (s'.areas j).page_states q = (s.areas j).page_states q) := by
  unfold _reserve_one_page at h
  cases hga : get_area s pfn with
  | none =>
    rw [hga] at h
    injection h with h
    injection h with hb hs
    subst hb; subst hs
    exact ⟨same_geom_refl s, fun _ => rfl, fun hc => Bool.noConfusion hc⟩
  | some ai =>
    rw [hga] at h
    dsimp only at h
    by_cases hdirty :
        (s.areas ai).page_states (pfn - (s.areas ai).base) &&& (ALLOC_MASK ||| SPECIAL_MASK) ≠ 0
    · rw [if_pos hdirty] at h
      injection h with h
      injection h with hb hs
      subst hb; subst hs
      exact ⟨same_geom_refl s, fun _ => rfl, fun hc => Bool.noConfusion hc⟩
    · rw [if_neg hdirty] at h
      cases hloop : reserve_split_loop pfn 64 (s.areas ai) with
      | none => rw [hloop] at h; exact Option.noConfusion h
      | some a1 =>
        rw [hloop] at h
        injection h with h
        injection h with hb hs
        subst hb
        obtain ⟨⟨hg1, hg2, hg3⟩, hkeep⟩ := reserve_split_loop_inv 64 _ _ hloop
        constructor
        · subst hs
          refine ⟨rfl, fun j => ?_, fun j => ?_⟩ <;>
            · rw [set_area_areas]
              by_cases hj : j = ai
              · subst hj
                simp [area_set_byte, hg2, hg3]
              · rw [if_neg hj]
        · refine ⟨fun hc => Bool.noConfusion hc, fun _ => ⟨ai, rfl, ?_, ?_⟩⟩
          · subst hs
            rw [set_area_areas, if_pos rfl]
            simp [area_set_byte]
          · intro j q hd hne
            subst hs
            rw [set_area_areas]
            by_cases hj : j = ai
            · subst hj
              rw [if_pos rfl]
              have hq : q ≠ pfn - (s.areas j).base := fun hq => hne ⟨rfl, hq⟩
              show (if q = pfn - (s.areas j).base then SPECIAL_MASK
                else a1.page_states q) = _
              rw [if_neg hq]
              exact hkeep q hd
            · rw [if_neg hj]

/-- A successful _reserve_one_page writes SPECIAL_MASK at pfn's byte. -/
theorem reserve_one_sets {s : AllocState} {pfn : Nat} {s' : AllocState}
    (h : _reserve_one_page s pfn = some (true, s')) :
    pstate_at s' pfn = some SPECIAL_MASK := by
  obtain ⟨hgeom, -, hsucc⟩ := reserve_one_inv h
  obtain ⟨ai, hga, hbyte, -⟩ := hsucc rfl
  unfold pstate_at
  rw [get_area_congr hgeom, hga]
  simp only [Option.map_some']
  rw [hgeom.2.1 ai]
  rw [hbyte]

/-- _reserve_one_page at pfn preserves the (dirty) byte of any other frame. -/
theorem reserve_one_keeps_dirty {s : AllocState} {pfn : Nat} {b : Bool}
    {s' : AllocState} (h : _reserve_one_page s pfn = some (b, s'))
    {p v : Nat} (hp : p ≠ pfn) (hv : pstate_at s p = some v)
    (hd : v &&& 0xc0 ≠ 0) : pstate_at s' p = some v := by
  obtain ⟨hgeom, hfail, hsucc⟩ := reserve_one_inv h
  cases b with
  | false => rw [hfail rfl]; exact hv
  | true =>
    obtain ⟨ai, hga, -, hkeep⟩ := hsucc rfl
    unfold pstate_at at hv ⊢
    cases hgp : get_area s p with
    | none => rw [hgp] at hv; exact Option.noConfusion hv
    | some aj =>
      rw [hgp] at hv
      simp only [Option.map_some', Option.some.injEq] at hv
      rw [get_area_congr hgeom, hgp]
      simp only [Option.map_some', Option.some.injEq]
      rw [hgeom.2.1 aj]
      rw [hkeep aj (p - (s.areas aj).base) (by rw [hv]; exact hd) ?_]
      · exact hv
      · rintro ⟨rfl, hq⟩
        have h1 := get_area_usable hga
        have h2 := get_area_usable hgp
        exact hp (by omega)

/-- SPECIAL_MASK carries bit 7 and bit 6 test. -/
theorem special_dirty : SPECIAL_MASK &&& 0xc0 ≠ 0 := by decide

/-- Induction over the forward loop of reserve_pages: the failure index is
at most the count, geometry is preserved, and every already-reserved frame
reads SPECIAL_MASK. -/
theorem reserve_upto_inv {s : AllocState} {pfn : Nat} :
    ∀ n i s1, reserve_upto s pfn n = some (i, s1) →
    i ≤ n ∧ same_geom s s1 ∧
    ∀ j, j < i → pstate_at s1 (pfn + j) = some SPECIAL_MASK := by
  intro n
  induction n with
  | zero =>
    intro i s1 h
    injection h with h
    injection h with h1 h2
    subst h1; subst h2
    exact ⟨Nat.le_refl 0, same_geom_refl s, fun j hj => absurd hj (Nat.not_lt_zero j)⟩
  | succ n ih =>
    intro i s1 h
    unfold reserve_upto at h
    cases hup : reserve_upto s pfn n with
    | none => rw [hup] at h; exact Option.noConfusion h
    | some is0 =>
      obtain ⟨i0, s0⟩ := is0
      rw [hup] at h
      dsimp only at h
      obtain ⟨hle, hgeom, hspec⟩ := ih i0 s0 hup
      by_cases hi0 : i0 < n
      · rw [if_pos hi0] at h
        injection h with h
        injection h with h1 h2
        subst h1; subst h2
        exact ⟨by omega, hgeom, hspec⟩
      · rw [if_neg hi0] at h
        cases hone : _reserve_one_page s0 (pfn + n) with
        | none => rw [hone] at h; exact Option.noConfusion h
        | some bs2 =>
          obtain ⟨b, s2⟩ := bs2
          rw [hone] at h
          cases b with
          | true =>
            dsimp only at h
            simp only [Option.some.injEq, Prod.mk.injEq] at h
            obtain ⟨hi, hs⟩ := h
            have hi0n : i0 = n := by omega
            refine ⟨by omega, ?_, ?_⟩
            · rw [← hs]
              exact same_geom_trans hgeom (reserve_one_inv hone).1
            · intro j hj
              rw [← hs]
              by_cases hjn : j < n
              · exact reserve_one_keeps_dirty hone (by omega)
                  (hspec j (by omega)) special_dirty
              · have hjn' : j = n := by omega
                subst hjn'
                exact reserve_one_sets hone
          | false =>
            dsimp only at h
            simp only [Option.some.injEq, Prod.mk.injEq] at h
            have hs2 : s2 = s0 := (reserve_one_inv hone).2.1 rfl
            refine ⟨by omega, ?_, ?_⟩
            · rw [← h.2, hs2]
              exact hgeom
            · intro j hj
              rw [← h.2, hs2]
              exact hspec j (by omega)

/-- coalesce: inversion for geometry and written bytes (each byte is either
untouched or rewritten to order + 1). -/
theorem coalesce_writes {a : mem_area} {order p1 p2 : Nat} {b : Bool}
    {a' : mem_area} (h : coalesce a order p1 p2 = some (b, a')) :
    (a'.states_pfn = a.states_pfn ∧ a'.base = a.base ∧ a'.top = a.top) ∧
    ∀ q, a'.page_states q = a.page_states q ∨ a'.page_states q = order + 1 := by
  unfold coalesce at h
  dsimp only at h
  repeat' split at h
  any_goals exact Option.noConfusion h
  all_goals simp only [Option.some.injEq, Prod.mk.injEq] at h
  all_goals obtain ⟨hb, ha⟩ := h
  all_goals subst ha
  all_goals first
    | exact ⟨⟨rfl, rfl, rfl⟩, fun q => Or.inl rfl⟩
    | (refine ⟨⟨rfl, rfl, rfl⟩, fun q => ?_⟩
       show pstate_write _ _ _ _ q = _ ∨ pstate_write _ _ _ _ q = _
       simp only [pstate_write]
       split
       · exact Or.inr rfl
       · exact Or.inl rfl)

/-- free_loop: geometry preserved; every byte is untouched or rewritten to a
value without the SPECIAL bit (coalesce writes order + 1 ≤ 64). -/
theorem free_loop_writes {p : Nat} :
    ∀ fuel pfn (a a' : mem_area), free_loop p fuel pfn a = some a' →
    (a'.states_pfn = a.states_pfn ∧ a'.base = a.base ∧ a'.top = a.top) ∧
    ∀ q, a'.page_states q = a.page_states q ∨ a'.page_states q &&& 0x80 = 0 := by
  intro fuel
  induction fuel with
  | zero => intro pfn a a' h; exact Option.noConfusion h
  | succ fuel ih =>
    intro pfn a a' h
    unfold free_loop at h
    dsimp only at h
    have hcl : (a.page_states p &&& ORDER_MASK) + 1 < 128 := by
      have := and_ORDER_MASK_lt (a.page_states p)
      omega
    cases hco : coalesce a (a.page_states p &&& ORDER_MASK)
        (if pfn % 2 ^ ((a.page_states p &&& ORDER_MASK) + 1) = 0 then pfn
          else pfn - 2 ^ (a.page_states p &&& ORDER_MASK))
        ((if pfn % 2 ^ ((a.page_states p &&& ORDER_MASK) + 1) = 0 then pfn
          else pfn - 2 ^ (a.page_states p &&& ORDER_MASK)) +
          2 ^ (a.page_states p &&& ORDER_MASK)) with
    | none => rw [hco] at h; exact Option.noConfusion h
    | some ba1 =>
      obtain ⟨b, a1⟩ := ba1
      rw [hco] at h
      obtain ⟨hg, hw⟩ := coalesce_writes hco
      cases b with
      | false =>
        dsimp only at h
        injection h with h
        subst h
        refine ⟨hg, fun q => ?_⟩
        rcases hw q with h1 | h1
        · exact Or.inl h1
        · exact Or.inr (by rw [h1]; exact clean_of_lt_128 _ hcl)
      | true =>
        dsimp only at h
        obtain ⟨hg2, hw2⟩ := ih _ _ _ h
        refine ⟨⟨hg2.1.trans hg.1, hg2.2.1.trans hg.2.1, hg2.2.2.trans hg.2.2⟩,
          fun q => ?_⟩
        rcases hw2 q with h2 | h2
        · rw [h2]
          rcases hw q with h1 | h1
          · exact Or.inl h1
          · exact Or.inr (by rw [h1]; exact clean_of_lt_128 _ hcl)
        · exact Or.inr h2

/-- ALLOC_MASK | order is below 128 for order < 64. -/
theorem alloc_or_lt : ∀ o, o < 64 → ALLOC_MASK ||| o < 128 := by decide

/-- _free_pages: geometry preserved, and every byte is either untouched or
left without the SPECIAL bit (the clear loop turns ALLOC|k bytes into k;
coalescing writes order + 1 ≤ 64). -/
theorem _free_pages_writes {s : AllocState} {m : Nat} {s' : AllocState}
    (h : _free_pages s m = some s') :
    same_geom s s' ∧ ∀ j q,
      (s'.areas j).page_states q = (s.areas j).page_states q ∨
      (s'.areas j).page_states q &&& 0x80 = 0 := by
  unfold _free_pages at h
  by_cases hm : m = 0
  · rw [if_pos hm] at h
    obtain rfl := Option.some.inj h
    exact ⟨same_geom_refl s, fun _ _ => Or.inl rfl⟩
  · rw [if_neg hm] at h
    by_cases hali : m % PAGE_SIZE = 0
    · rw [if_pos hali] at h
      dsimp only at h
      cases hga : get_area s (virt_to_pfn m) with
      | none => rw [hga] at h; exact Option.noConfusion h
      | some ai =>
        rw [hga] at h
        dsimp only at h
        repeat' split at h
        any_goals exact Option.noConfusion h
        rename_i hps hord hali2 husable hguard xo a2 hfl
        obtain rfl := Option.some.inj h
        obtain ⟨hg, hw⟩ := free_loop_writes 65 _ _ _ hfl
        constructor
        · refine ⟨rfl, fun j => ?_, fun j => ?_⟩ <;>
            · rw [set_area_areas]
              by_cases hj : j = ai
              · subst hj
                rw [if_pos rfl]
                first
                  | exact hg.2.1
                  | exact hg.2.2
              · rw [if_neg hj]
        · intro j q
          rw [set_area_areas]
          by_cases hj : j = ai
          · rw [hj, if_pos rfl]
            rcases hw q with hq | hq
            · rw [hq]
              show pstate_and _ _ _ _ q = _ ∨ pstate_and _ _ _ _ q &&& 0x80 = 0
              simp only [pstate_and]
              by_cases hin : virt_to_pfn m - (s.areas ai).base ≤ q ∧
                  q < virt_to_pfn m - (s.areas ai).base +
                    2 ^ ((s.areas ai).page_states
                      (virt_to_pfn m - (s.areas ai).base) &&& ORDER_MASK)
              · rw [if_pos hin]
                refine Or.inr ?_
                have hv := hguard (q - (virt_to_pfn m - (s.areas ai).base)) (by omega)
                rw [Nat.add_sub_cancel' hin.1] at hv
                rw [hv]
                have hlt : ALLOC_MASK |||
                    ((s.areas ai).page_states
                      (virt_to_pfn m - (s.areas ai).base) &&& ORDER_MASK) < 128 :=
                  alloc_or_lt _ (and_ORDER_MASK_lt _)
                exact clean_of_lt_128 _ (lt_of_le_of_lt Nat.and_le_left hlt)
              · rw [if_neg hin]
                exact Or.inl rfl
            · exact Or.inr hq
          · rw [if_neg hj]
            exact Or.inl rfl
    · rw [if_neg hali] at h
      exact Option.noConfusion h

/-- Transport a clean byte across a geometry-preserving, clean-writing step. -/
theorem pstate_clean_step {s1 s2 : AllocState} (hg : same_geom s1 s2)
    (hw : ∀ j q, (s2.areas j).page_states q = (s1.areas j).page_states q ∨
      (s2.areas j).page_states q &&& 0x80 = 0)
    {p v : Nat} (hv : pstate_at s1 p = some v) (hc : v &&& 0x80 = 0) :
    ∃ v', pstate_at s2 p = some v' ∧ v' &&& 0x80 = 0 := by
  unfold pstate_at at hv ⊢
  cases hga : get_area s1 p with
  | none => rw [hga] at hv; exact Option.noConfusion hv
  | some aj =>
    rw [hga] at hv
    simp only [Option.map_some', Option.some.injEq] at hv
    rw [get_area_congr hg, hga]
    simp only [Option.map_some', Option.some.injEq]
    rw [hg.2.1 aj]
    rcases hw aj (p - (s1.areas aj).base) with hq | hq
    · exact ⟨_, rfl, by rw [hq, hv]; exact hc⟩
    · exact ⟨_, rfl, hq⟩

/-- _unreserve_one_page: geometry preserved, all writes clean, and the
unreserved frame's own byte ends without the SPECIAL bit. -/
theorem unreserve_one_inv {s : AllocState} {pfn : Nat} {s' : AllocState}
    (h : _unreserve_one_page s pfn = some s') :
    same_geom s s' ∧
    (∀ j q, (s'.areas j).page_states q = (s.areas j).page_states q ∨
      (s'.areas j).page_states q &&& 0x80 = 0) ∧
    ∃ v, pstate_at s' pfn = some v ∧ v &&& 0x80 = 0 := by
  unfold _unreserve_one_page at h
  cases hga : get_area s pfn with
  | none => rw [hga] at h; exact Option.noConfusion h
  | some ai =>
    rw [hga] at h
    dsimp only at h
    split at h
    case isFalse => exact Option.noConfusion h
    case isTrue hsp =>
      obtain ⟨hgf, hwf⟩ := _free_pages_writes h
      have hmid : same_geom s
          (set_area s ai (area_set_byte (s.areas ai) (pfn - (s.areas ai).base)
            ALLOC_MASK)) := by
        refine ⟨rfl, fun j => ?_, fun j => ?_⟩ <;>
          · rw [set_area_areas]
            by_cases hj : j = ai
            · subst hj; rw [if_pos rfl]; rfl
            · rw [if_neg hj]
      refine ⟨same_geom_trans hmid hgf, ?_, ?_⟩
      · intro j q
        rcases hwf j q with hq | hq
        · rw [hq, set_area_areas]
          by_cases hj : j = ai
          · subst hj
            rw [if_pos rfl]
            show (if q = pfn - (s.areas j).base then ALLOC_MASK
              else (s.areas j).page_states q) = _ ∨
              (if q = pfn - (s.areas j).base then ALLOC_MASK
                else (s.areas j).page_states q) &&& 0x80 = 0
            by_cases hq2 : q = pfn - (s.areas j).base
            · rw [if_pos hq2]
              exact Or.inr (by decide)
            · rw [if_neg hq2]
              exact Or.inl rfl
          · rw [if_neg hj]
            exact Or.inl rfl
        · exact Or.inr hq
      · -- the frame's own byte: ALLOC_MASK (clean) before free, clean after
        have hmidv : pstate_at
            (set_area s ai (area_set_byte (s.areas ai) (pfn - (s.areas ai).base)
              ALLOC_MASK)) pfn = some ALLOC_MASK := by
          unfold pstate_at
          rw [get_area_congr hmid, hga]
          simp only [Option.map_some', Option.some.injEq]
          rw [hmid.2.1 ai, set_area_areas, if_pos rfl]
          show (if pfn - (s.areas ai).base = pfn - (s.areas ai).base then ALLOC_MASK
            else (s.areas ai).page_states (pfn - (s.areas ai).base)) = ALLOC_MASK
          rw [if_pos rfl]
        exact pstate_clean_step hgf hwf hmidv (by decide)

/-- unreserve_range: geometry preserved and every processed frame ends with
its SPECIAL bit cleared. -/
theorem unreserve_range_inv {s : AllocState} {pfn : Nat} :
    ∀ n s', unreserve_range s pfn n = some s' →
    same_geom s s' ∧
    ∀ j, j < n → ∃ v, pstate_at s' (pfn + j) = some v ∧ v &&& 0x80 = 0 := by
  intro n
  induction n with
  | zero =>
    intro s' h
    obtain rfl := Option.some.inj h
    exact ⟨same_geom_refl s, fun j hj => absurd hj (Nat.not_lt_zero j)⟩
  | succ n ih =>
    intro s' h
    unfold unreserve_range at h
    cases hur : unreserve_range s pfn n with
    | none => rw [hur] at h; exact Option.noConfusion h
    | some s1 =>
      rw [hur] at h
      obtain ⟨hg1, hcl1⟩ := ih s1 hur
      obtain ⟨hg2, hw2, hown⟩ := unreserve_one_inv h
      refine ⟨same_geom_trans hg1 hg2, ?_⟩
      intro j hj
      by_cases hjn : j < n
      · obtain ⟨v, hv, hc⟩ := hcl1 j hjn
        exact pstate_clean_step hg2 hw2 hv hc
      · have : j = n := by omega
        subst this
        exact hown

/-- C3 amended: reserve_pages is all-or-nothing for n ≥ 1 — it returns 0 iff
n ≥ 1 and the forward loop reserved all n frames (each then reads
SPECIAL_MASK); on failure at index i < n the frames [0, i) are unreserved
again (their SPECIAL bit ends cleared) and non-zero is returned; and for
n = 0 it returns non-zero having reserved nothing. -/
theorem C3_reserve_pages_all_or_nothing (s : AllocState) (addr n : Nat) (r : Int)
    (s' : AllocState) (h : reserve_pages s addr n = some (r, s')) :
    (r = 0 ↔ 1 ≤ n ∧ reserve_upto s (addr / 2 ^ PAGE_SHIFT) n = some (n, s')) ∧
    (r = 0 → ∀ j, j < n →
      pstate_at s' (addr / 2 ^ PAGE_SHIFT + j) = some SPECIAL_MASK) ∧
    (r ≠ 0 → ∃ i s1, reserve_upto s (addr / 2 ^ PAGE_SHIFT) n = some (i, s1) ∧
      (i < n ∨ n = 0) ∧
      ∀ j, j < i → ∃ v, pstate_at s' (addr / 2 ^ PAGE_SHIFT + j) = some v ∧
        v &&& SPECIAL_MASK = 0) := by
  unfold reserve_pages at h
  by_cases hali : addr % PAGE_SIZE = 0
  · rw [if_pos hali] at h
    dsimp only at h
    cases hup : reserve_upto s (addr / 2 ^ PAGE_SHIFT) n with
    | none => rw [hup] at h; exact Option.noConfusion h
    | some is1 =>
      obtain ⟨i, s1⟩ := is1
      rw [hup] at h
      dsimp only at h
      obtain ⟨hle, hgeom, hspec⟩ := reserve_upto_inv n i s1 hup
      by_cases hin : i < n
      · rw [if_pos hin] at h
        cases hur : unreserve_range s1 (addr / 2 ^ PAGE_SHIFT) i with
        | none => rw [hur] at h; exact Option.noConfusion h
        | some s2 =>
          rw [hur] at h
          simp only [Option.some.injEq, Prod.mk.injEq] at h
          obtain ⟨hr, hs⟩ := h
          refine ⟨⟨?_, ?_⟩, ?_, ?_⟩
          · intro h0
            rw [← hr] at h0
            exact absurd h0 (by decide)
          · rintro ⟨-, heq⟩
            simp only [Option.some.injEq, Prod.mk.injEq] at heq
            omega
          · intro h0
            rw [← hr] at h0
            exact absurd h0 (by decide)
          · intro _
            refine ⟨i, s1, rfl, Or.inl hin, ?_⟩
            intro j hj
            obtain ⟨-, hclean⟩ := unreserve_range_inv i s2 hur
            rw [← hs]
            exact hclean j hj
      · rw [if_neg hin] at h
        simp only [Option.some.injEq, Prod.mk.injEq] at h
        obtain ⟨hr, hs⟩ := h
        by_cases hn : n = 0
        · rw [if_pos hn] at hr
          refine ⟨⟨?_, ?_⟩, ?_, ?_⟩
          · intro h0
            rw [← hr] at h0
            exact absurd h0 (by decide)
          · rintro ⟨h1, -⟩
            omega
          · intro h0
            rw [← hr] at h0
            exact absurd h0 (by decide)
          · intro _
            refine ⟨i, s1, rfl, Or.inr hn, ?_⟩
            intro j hj
            exact absurd hj (by omega)
        · rw [if_neg hn] at hr
          have hi : i = n := by omega
          refine ⟨⟨?_, ?_⟩, ?_, ?_⟩
          · intro _
            exact ⟨by omega, by rw [← hi, ← hs]⟩
          · intro _
            exact hr.symm
          · intro _ j hj
            rw [← hs]
            exact hspec j (by omega)
          · intro h0
            exact absurd hr.symm h0
  · rw [if_neg hali] at h
    exact Option.noConfusion h

/-- Witness for C3 amended: reserving one frame at PFN 0x100 of `tS`
succeeds in full, returning 0. -/
theorem C3_reserve_pages_all_or_nothing_witness :
    reserve_pages tS (pfn_to_virt 0x100) 1 =
      some (0, ((reserve_pages tS (pfn_to_virt 0x100) 1).getD (0, tS)).2) ∧
    (((0 : Int) = 0) ↔ 1 ≤ 1 ∧
      reserve_upto tS (pfn_to_virt 0x100 / 2 ^ PAGE_SHIFT) 1 =
        some (1, ((reserve_pages tS (pfn_to_virt 0x100) 1).getD (0, tS)).2)) ∧
    ((0 : Int) = 0 → ∀ j, j < 1 →
      pstate_at ((reserve_pages tS (pfn_to_virt 0x100) 1).getD (0, tS)).2
        (pfn_to_virt 0x100 / 2 ^ PAGE_SHIFT + j) = some SPECIAL_MASK) ∧
    ((0 : Int) ≠ 0 → ∃ i s1,
      reserve_upto tS (pfn_to_virt 0x100 / 2 ^ PAGE_SHIFT) 1 = some (i, s1) ∧
      (i < 1 ∨ 1 = 0) ∧
      ∀ j, j < i → ∃ v,
        pstate_at ((reserve_pages tS (pfn_to_virt 0x100) 1).getD (0, tS)).2
          (pfn_to_virt 0x100 / 2 ^ PAGE_SHIFT + j) = some v ∧
        v &&& SPECIAL_MASK = 0) :=
  ⟨rfl, C3_reserve_pages_all_or_nothing tS (pfn_to_virt 0x100) 1 0 _ rfl⟩

/-- C1: on `memalign_pages_area(all, align_bytes = 16*PAGE_SIZE, size_bytes
= PAGE_SIZE)` against a pristine 16-page area, the claim requires the
returned page to be allocated at order s = 0 (metadata byte ALLOC_MASK | 0)
with the other 15 pages of the split order-4 block free in lower-order
freelists.  The code instead allocates the whole order-4 block: the call
chain passes (ord, al) = (size order, align order) into
page_memalign_order's parameters (al, sz), so the cascade stops at the
alignment order and the memset writes ALLOC_MASK | 4 over all 16 bytes,
leaving every freelist empty. -/
theorem C1_memalign_swaps_alignment_and_size :
    (memalign_pages_area tS 1 (16 * PAGE_SIZE) PAGE_SIZE).map
      (fun rs => (rs.1, (List.range 16).map (rs.2.areas 0).page_states,
        ((List.range NLISTS).map (rs.2.areas 0).freelists).all List.isEmpty))
      = some (pfn_to_virt 0x100, List.replicate 16 (ALLOC_MASK ||| 4), true) := by
  decide

/-- C2: immediately after a successful `_reserve_one_page(0x100)` (run here
through `reserve_pages`) the claim requires frame 0x100 not to be reachable
from freelists[0].  The code never unlinks the frame: the split cascade
leaves it in freelists[0] and `_reserve_one_page` only overwrites the
metadata byte with SPECIAL_MASK, so freelists[0] still holds PFN 0x100. -/
theorem C2_reserved_frame_left_in_freelist :
    (reserve_pages tS (pfn_to_virt 0x100) 1).map
      (fun rs => (rs.1, (rs.2.areas 0).page_states 0, (rs.2.areas 0).freelists 0))
      = some (0, SPECIAL_MASK, [0x101, 0x100]) := by
  decide

/-- C3 counterexample: `reserve_pages(addr, 0)` reserves all zero frames
(vacuously) yet returns -1, because the C function ends with `return -!n;`
and n = 0.  This refutes the claim's "returns 0 if and only if all n frames
... were successfully reserved ... including n = 0". -/
theorem C3_reserve_zero_returns_failure :
    reserve_pages tS (pfn_to_virt 0x100) 0 = some (-1, tS) ∧ (-1 : Int) ≠ 0 :=
  ⟨rfl, by decide⟩

/-- C4: reserving and then unreserving frame 0x100 (a free order-0 block
whose buddy 0x101 is allocated) must restore the pre-state bit-identically
modulo coalescing.  The metadata bytes are restored, but because
`_reserve_one_page` never unlinked the frame from freelists[0], the
unreserve path adds it a second time: freelists[0] ends as
[0x100, 0x100] instead of [0x100].  (In the C original this re-add of an
already-linked node corrupts the intrusive list's sentinel pointers.) -/
theorem C4_reserve_unreserve_leaves_stale_freelist_entry :
    ((reserve_pages uS (pfn_to_virt 0x100) 1).bind
        (fun rs => unreserve_pages rs.2 (pfn_to_virt 0x100) 1)).map
      (fun s2 => ((List.range 16).map (s2.areas 0).page_states,
        (s2.areas 0).freelists 0))
      = some ((List.range 16).map uA.page_states, [0x100, 0x100]) := by
  decide

/-- C7: the metadata table size (top - start + PAGE_SIZE) / (PAGE_SIZE + 1)
computed by _page_alloc_init_area is the least t with
t * PAGE_SIZE ≥ (top - start) - t, and the post-condition
(base - start) * PAGE_SIZE ≥ top - base with base = start + t holds. -/
theorem C7_table_size_minimal (start top u : Nat) (h : start < top) :
    (top - start) - table_size start top ≤ table_size start top * PAGE_SIZE ∧
    ((top - start) - u ≤ u * PAGE_SIZE → table_size start top ≤ u) ∧
    top - (start + table_size start top) ≤
      ((start + table_size start top) - start) * PAGE_SIZE := by
  unfold table_size PAGE_SIZE
  omega

/-- Witness for C7 at start = 0x100, top = 0x110, u = 3. -/
theorem C7_table_size_minimal_witness :
    0x100 < 0x110 ∧
    ((0x110 - 0x100) - table_size 0x100 0x110 ≤ table_size 0x100 0x110 * PAGE_SIZE ∧
    ((0x110 - 0x100) - 3 ≤ 3 * PAGE_SIZE → table_size 0x100 0x110 ≤ 3) ∧
    0x110 - (0x100 + table_size 0x100 0x110) ≤
      ((0x100 + table_size 0x100 0x110) - 0x100) * PAGE_SIZE) :=
  ⟨by decide, C7_table_size_minimal 0x100 0x110 3 (by decide)⟩

/-- C10: when the caller's mask has no bit in common with areas_mask, the
allocation loop never runs, so alloc_pages_area returns NULL for every
order (even ≥ NLISTS) without reaching page_memalign_order's order-bound
assertion, and the state is untouched. -/
theorem C10_empty_mask_returns_null (s : AllocState) (mask order : Nat)
    (h : mask &&& s.areas_mask = 0) :
    alloc_pages_area s mask order = some (0, s) := by
  unfold alloc_pages_area page_memalign_order_area
  rw [h]
  exact pmoa_loop_zero_mask _ _ _ _

/-- Witness for C10: mask 2 against areas_mask 1, order 1000 ≥ NLISTS. -/
theorem C10_empty_mask_returns_null_witness :
    (2 : Nat) &&& tS.areas_mask = 0 ∧ alloc_pages_area tS 2 1000 = some (0, tS) :=
  ⟨by decide, C10_empty_mask_returns_null tS 2 1000 (by decide)⟩

/-- Any two non-empty aligned blocks of stride d that overlap coincide. -/
theorem aligned_overlap_eq {d b q : Nat} (hb : b % d = 0)
    (hq : q % d = 0) (h1 : q < b + d) (h2 : b < q + d) : q = b := by
  obtain ⟨bb, rfl⟩ := Nat.dvd_of_mod_eq_zero hb
  obtain ⟨qq, rfl⟩ := Nat.dvd_of_mod_eq_zero hq
  have e1 : d * qq < d * (bb + 1) := by rw [Nat.mul_add, Nat.mul_one]; exact h1
  have e2 : d * bb < d * (qq + 1) := by rw [Nat.mul_add, Nat.mul_one]; exact h2
  have l1 := Nat.lt_of_mul_lt_mul_left e1
  have l2 := Nat.lt_of_mul_lt_mul_left e2
  have hqq : qq = bb := by omega
  rw [hqq]

/-- Two free blocks sharing a frame have the same order and the same header:
the shared frame's metadata byte equals both orders, and two aligned
equal-order blocks that overlap coincide. -/
theorem free_block_overlap {a : mem_area} {k b j q f : Nat}
    (hb : free_block_at a k b) (hq : free_block_at a j q)
    (hf1 : b ≤ f) (hf2 : f < b + 2 ^ k) (hg1 : q ≤ f) (hg2 : f < q + 2 ^ j) :
    j = k ∧ q = b := by
  obtain ⟨hb1, hb2, hb3, hb4⟩ := hb
  obtain ⟨hq1, hq2, hq3, hq4⟩ := hq
  have e1 : a.page_states (f - a.base) = k := by
    have := hb4 (f - b) (by omega)
    have heq : b - a.base + (f - b) = f - a.base := by omega
    rw [heq] at this
    exact this
  have e2 : a.page_states (f - a.base) = j := by
    have := hq4 (f - q) (by omega)
    have heq : q - a.base + (f - q) = f - a.base := by omega
    rw [heq] at this
    exact this
  have hjk : j = k := by rw [← e1, ← e2]
  subst hjk
  exact ⟨rfl, aligned_overlap_eq hb3 hq3 (by omega) (by omega)⟩

/-- coalesce inversion, failure case: the area is unchanged and one of the
two failure reasons holds. -/
theorem coalesce_false {a : mem_area} {order p1 p2 : Nat} {a1 : mem_area}
    (h : coalesce a order p1 p2 = some (false, a1)) :
    a1 = a ∧
    ((¬ usable_area_contains_pfn a p1 ∨
      ¬ usable_area_contains_pfn a (p2 + 2 ^ order - 1)) ∨
      (a.page_states (p1 - a.base) ≠ order ∨
       a.page_states (p2 - a.base) ≠ order)) := by
  unfold coalesce at h
  dsimp only at h
  repeat' split at h
  any_goals exact Option.noConfusion h
  all_goals simp only [Option.some.injEq, Prod.mk.injEq] at h
  · exact ⟨h.2.symm, Or.inl (by assumption)⟩
  · exact ⟨h.2.symm, Or.inr (by assumption)⟩
  · exact absurd h.1 (by decide)

/-- coalesce inversion, success case. -/
theorem coalesce_true {a : mem_area} {order p1 p2 : Nat} {a1 : mem_area}
    (h : coalesce a order p1 p2 = some (true, a1)) :
    is_aligned_order p1 order ∧ p2 = p1 + 2 ^ order ∧
    usable_area_contains_pfn a p1 ∧
    usable_area_contains_pfn a (p2 + 2 ^ order - 1) ∧
    (∀ i, i < 2 * 2 ^ order → a.page_states (p1 - a.base + i) = order) ∧
    a1.base = a.base ∧ a1.top = a.top ∧
    a1.page_states =
      pstate_write a.page_states (p1 - a.base) (2 * 2 ^ order) (order + 1) := by
  unfold coalesce at h
  dsimp only at h
  repeat' split at h
  any_goals exact Option.noConfusion h
  all_goals simp only [Option.some.injEq, Prod.mk.injEq] at h
  · exact absurd h.1 (by decide)
  · exact absurd h.1 (by decide)
  · rename_i halg hp2 hnu hne hall
    push_neg at hnu
    refine ⟨halg.1, hp2, hnu.1, hnu.2, hall, ?_, ?_, ?_⟩ <;> rw [← h.2]

/-- Values below 64 are fixed by ORDER_MASK. -/
theorem and_ORDER_MASK_id : ∀ v, v < 64 → v &&& ORDER_MASK = v := by decide

/-- Clearing ALLOC_MASK from ALLOC_MASK | o yields o, for o < 64. -/
theorem clear_alloc : ∀ o, o < 64 → (ALLOC_MASK ||| o) &&& 0xbf = o := by decide

/-- The candidate chosen by the free loop is aligned one order higher, and
in the not-aligned case the header is at least 2^k. -/
theorem buddy_align {pfn k : Nat} (h : pfn % 2 ^ k = 0) :
    (if pfn % 2 ^ (k + 1) = 0 then pfn else pfn - 2 ^ k) % 2 ^ (k + 1) = 0 ∧
    (¬ pfn % 2 ^ (k + 1) = 0 → 2 ^ k ≤ pfn) := by
  by_cases h2 : pfn % 2 ^ (k + 1) = 0
  · rw [if_pos h2]
    exact ⟨h2, fun hc => absurd h2 hc⟩
  · rw [if_neg h2]
    obtain ⟨m, rfl⟩ := Nat.dvd_of_mod_eq_zero h
    have hm : m % 2 = 1 := by
      rcases Nat.mod_two_eq_zero_or_one m with h0 | h1
      · exfalso
        apply h2
        obtain ⟨mm, rfl⟩ := Nat.dvd_of_mod_eq_zero h0
        rw [pow_succ, Nat.mul_mod_mul_left]
        simp [Nat.mul_mod_right]
      · exact h1
    have hm1 : 1 ≤ m := by omega
    obtain ⟨mm, rfl⟩ : ∃ mm, m = mm + 1 := ⟨m - 1, by omega⟩
    have hexp : 2 ^ k * (mm + 1) = 2 ^ k * mm + 2 ^ k := by ring
    constructor
    · rw [hexp, Nat.add_sub_cancel]
      have hmm : mm % 2 = 0 := by omega
      obtain ⟨t, rfl⟩ := Nat.dvd_of_mod_eq_zero hmm
      rw [pow_succ, Nat.mul_mod_mul_left]
      simp [Nat.mul_mod_right]
    · intro _
      rw [hexp]
      omega

/-- A free block whose bytes are unchanged is a free block of the old area. -/
theorem free_block_untouched {a a' : mem_area} (hb : a'.base = a.base)
    (ht : a'.top = a.top) {j q : Nat} (hq : free_block_at a' j q)
    (heq : ∀ i, i < 2 ^ j →
      a'.page_states (q - a'.base + i) = a.page_states (q - a'.base + i)) :
    free_block_at a j q := by
  obtain ⟨h1, h2, h3, h4⟩ := hq
  refine ⟨by rw [← hb]; exact h1, by rw [← ht]; exact h2, h3, fun i hi => ?_⟩
  have := h4 i hi
  rw [heq i hi] at this
  rw [← hb]
  exact this

/-- If all byte changes are confined to the offsets of the block at bK, and
every old buddy pair has one of its blocks meeting the pfn range of that
block, then in the new area every buddy pair involves the block at bK. -/
theorem only_pair_localized {a a' : mem_area} (hb : a'.base = a.base)
    (ht : a'.top = a.top) {K bK : Nat} (hB : free_block_at a' K bK)
    (hout : ∀ off, a'.page_states off = a.page_states off ∨
      (bK - a.base ≤ off ∧ off < bK - a.base + 2 ^ K))
    (hold : ∀ k' p', k' < NLISTS → p' % 2 ^ (k' + 1) = 0 →
      free_block_at a k' p' → free_block_at a k' (p' + 2 ^ k') →
      ∃ f, bK ≤ f ∧ f < bK + 2 ^ K ∧
        ((p' ≤ f ∧ f < p' + 2 ^ k') ∨
         (p' + 2 ^ k' ≤ f ∧ f < p' + 2 ^ k' + 2 ^ k'))) :
    only_pair a' K bK := by
  intro k' hk' p' hp' halign hF1 hF2
  have hKb := hB.1
  have hKt := hB.2.1
  have hpos1 : 0 < 2 ^ K := Nat.two_pow_pos K
  have hpos2 : 0 < 2 ^ k' := Nat.two_pow_pos k'
  by_cases hov1 : bK < p' + 2 ^ k' ∧ p' < bK + 2 ^ K
  · -- the left block overlaps the changed window: it is the block at bK
    refine Exists.elim ?_ fun hjk (hqb : p' = bK) => ⟨hjk, Or.inl hqb⟩
    by_cases hc : bK ≤ p'
    · obtain ⟨hjk, hqb⟩ := free_block_overlap hB hF1 hc (by omega)
        (le_refl p') (by omega)
      exact ⟨hjk, hqb⟩
    · obtain ⟨hjk, hqb⟩ := free_block_overlap hB hF1 (le_refl bK) (by omega)
        (by omega) hov1.1
      exact ⟨hjk, hqb⟩
  · by_cases hov2 : bK < p' + 2 ^ k' + 2 ^ k' ∧ p' + 2 ^ k' < bK + 2 ^ K
    · refine Exists.elim ?_ fun hjk (hqb : p' + 2 ^ k' = bK) => ⟨hjk, Or.inr hqb⟩
      by_cases hc : bK ≤ p' + 2 ^ k'
      · obtain ⟨hjk, hqb⟩ := free_block_overlap hB hF2 hc (by omega)
          (le_refl _) (by omega)
        exact ⟨hjk, hqb⟩
      · obtain ⟨hjk, hqb⟩ := free_block_overlap hB hF2 (le_refl bK) (by omega)
          (by omega) hov2.1
        exact ⟨hjk, hqb⟩
    · -- both blocks lie outside the changed window: an old pair existed
      exfalso
      have hno1 := not_and_or.mp hov1
      have hno2 := not_and_or.mp hov2
      have hb1 := hF1.1
      have hb2 := hF2.1
      rw [hb] at hb1 hb2 hKb
      have hun1 : ∀ i, i < 2 ^ k' →
          a'.page_states (p' - a'.base + i) = a.page_states (p' - a'.base + i) := by
        intro i hi
        rcases hout (p' - a'.base + i) with he | hin
        · exact he
        · exfalso
          rw [hb] at hin
          rcases hno1 with hx | hx
          · omega
          · omega
      have hun2 : ∀ i, i < 2 ^ k' →
          a'.page_states (p' + 2 ^ k' - a'.base + i) =
            a.page_states (p' + 2 ^ k' - a'.base + i) := by
        intro i hi
        rcases hout (p' + 2 ^ k' - a'.base + i) with he | hin
        · exact he
        · exfalso
          rw [hb] at hin
          rcases hno2 with hx | hx
          · omega
          · omega
      obtain ⟨f, hf1, hf2, hf3⟩ := hold k' p' hk' halign
        (free_block_untouched hb ht hF1 hun1)
        (free_block_untouched hb ht hF2 hun2)
      rcases not_and_or.mp hov1 with hx | hx <;>
        rcases not_and_or.mp hov2 with hy | hy <;>
        rcases hf3 with ⟨hl1, hl2⟩ | ⟨hl1, hl2⟩ <;> omega

/-- When the coalesce attempt on the loop's candidate pair fails, no buddy
pair remains: any pair must involve the current block (only_pair), and the
pair's own free-block facts contradict every failure reason. -/
theorem exit_no_pairs {a : mem_area} {k b p1 : Nat}
    (hB : free_block_at a k b) (honly : only_pair a k b)
    (hp1 : p1 = if b % 2 ^ (k + 1) = 0 then b else b - 2 ^ k)
    (hreason : (¬ usable_area_contains_pfn a p1 ∨
        ¬ usable_area_contains_pfn a (p1 + 2 ^ k + 2 ^ k - 1)) ∨
      (a.page_states (p1 - a.base) ≠ k ∨
       a.page_states (p1 + 2 ^ k - a.base) ≠ k)) :
    no_buddy_pairs a := by
  intro k' hk' p' hp' hconj
  obtain ⟨halign, hF1, hF2⟩ := hconj
  obtain ⟨hjk, hside⟩ := honly k' hk' p' hp' halign hF1 hF2
  subst hjk
  have hpos : 0 < 2 ^ k' := Nat.two_pow_pos k'
  -- in both cases the candidate the loop probed is exactly the pair's left
  -- header p1 = p'
  have hpe : p1 = p' := by
    rcases hside with hq | hq
    · subst hq
      rw [hp1, if_pos halign]
    · rw [hp1, ← hq]
      have hmod : (p' + 2 ^ k') % 2 ^ (k' + 1) = 2 ^ k' := by
        have hlt : (2:Nat) ^ k' < 2 ^ (k' + 1) :=
          Nat.pow_lt_pow_right (by norm_num) (by omega)
        rw [Nat.add_mod, halign, Nat.zero_add, Nat.mod_eq_of_lt hlt,
          Nat.mod_eq_of_lt hlt]
      rw [if_neg (by rw [hmod]; omega)]
      omega
  subst hpe
  obtain ⟨hF1a, hF1b, hF1c, hF1d⟩ := hF1
  obtain ⟨hF2a, hF2b, hF2c, hF2d⟩ := hF2
  rcases hreason with (hr | hr) | (hr | hr)
  · exact hr ⟨hF1a, by omega⟩
  · exact hr ⟨by omega, by omega⟩
  · apply hr
    have := hF1d 0 hpos
    rw [Nat.add_zero] at this
    exact this
  · apply hr
    have := hF2d 0 hpos
    rw [Nat.add_zero] at this
    exact this

/-- The coalescing loop of _free_pages terminates with no buddy pair left,
given the loop invariant: the current candidate block (order k headed at
pfn, containing the originally freed frame at offset p0) is free, k < 64,
and every pair involves it. -/
theorem free_loop_no_pairs {p0 : Nat} :
    ∀ fuel pfn (a a' : mem_area), free_loop p0 fuel pfn a = some a' →
    a.top < 2 ^ 63 →
    ∀ k, k < 64 → free_block_at a k pfn →
    pfn ≤ a.base + p0 → a.base + p0 < pfn + 2 ^ k →
    only_pair a k pfn →
    no_buddy_pairs a' := by
  intro fuel
  induction fuel with
  | zero =>
    intro pfn a a' h htop k hk hB hc1 hc2 honly
    exact Option.noConfusion h
  | succ fuel ih =>
    intro pfn a a' h htop k hk hB hc1 hc2 honly
    have hbase : a.base ≤ pfn := hB.1
    have hps0 : a.page_states p0 = k := by
      have hx := hB.2.2.2 (p0 - (pfn - a.base)) (by omega)
      have heq : pfn - a.base + (p0 - (pfn - a.base)) = p0 := by omega
      rw [heq] at hx
      exact hx
    unfold free_loop at h
    dsimp only at h
    rw [hps0, and_ORDER_MASK_id k hk] at h
    have halB := hB.2.2.1
    obtain ⟨halk1, hge⟩ := @buddy_align pfn k halB
    have hposk : 0 < 2 ^ k := Nat.two_pow_pos k
    cases hco : coalesce a k (if pfn % 2 ^ (k + 1) = 0 then pfn else pfn - 2 ^ k)
        ((if pfn % 2 ^ (k + 1) = 0 then pfn else pfn - 2 ^ k) + 2 ^ k) with
    | none => rw [hco] at h; exact Option.noConfusion h
    | some ba1 =>
      obtain ⟨bb, a1⟩ := ba1
      rw [hco] at h
      cases bb with
      | false =>
        dsimp only at h
        obtain rfl := Option.some.inj h
        obtain ⟨hae, hreason⟩ := coalesce_false hco
        subst hae
        exact exit_no_pairs hB honly rfl hreason
      | true =>
        dsimp only at h
        obtain ⟨halg1, hp2e, hu1, hu2, hall, hbase1, htop1, hps1⟩ := coalesce_true hco
        have h2k1 : (2:Nat) ^ (k + 1) = 2 * 2 ^ k := by rw [pow_succ]; ring
        have hp1cases : (pfn % 2 ^ (k + 1) = 0 ∧
            (if pfn % 2 ^ (k + 1) = 0 then pfn else pfn - 2 ^ k) = pfn) ∨
            (¬ pfn % 2 ^ (k + 1) = 0 ∧
            (if pfn % 2 ^ (k + 1) = 0 then pfn else pfn - 2 ^ k) = pfn - 2 ^ k ∧
            2 ^ k ≤ pfn) := by
          by_cases hcc : pfn % 2 ^ (k + 1) = 0
          · exact Or.inl ⟨hcc, if_pos hcc⟩
          · exact Or.inr ⟨hcc, if_neg hcc, hge hcc⟩
        set p1 := if pfn % 2 ^ (k + 1) = 0 then pfn else pfn - 2 ^ k with hp1def
        have hrange : p1 ≤ pfn ∧ pfn + 2 ^ k ≤ p1 + 2 ^ (k + 1) := by
          rcases hp1cases with ⟨-, he⟩ | ⟨-, he, hgepfn⟩ <;> rw [he] <;> omega
        have hB' : free_block_at a1 (k + 1) p1 := by
          refine ⟨?_, ?_, halk1, ?_⟩
          · rw [hbase1]
            exact hu1.1
          · rw [htop1]
            have := hu2.2
            omega
          · intro i hi
            rw [hps1]
            show (if p1 - a.base ≤ p1 - a1.base + i ∧
                p1 - a1.base + i < p1 - a.base + 2 * 2 ^ k then k + 1
              else a.page_states (p1 - a1.base + i)) = k + 1
            rw [hbase1, if_pos (by omega)]
        have hk' : k + 1 < 64 := by
          have hbound : p1 + 2 ^ (k + 1) ≤ a1.top := hB'.2.1
          rw [htop1] at hbound
          have hlt : (2:Nat) ^ (k + 1) < 2 ^ 63 := by omega
          by_contra hge64
          have : (2:Nat) ^ 63 ≤ 2 ^ (k + 1) :=
            Nat.pow_le_pow_right (by norm_num) (by omega)
          omega
        have honly' : only_pair a1 (k + 1) p1 := by
          apply only_pair_localized hbase1 htop1 hB'
          · intro off
            rw [hps1]
            show (if p1 - a.base ≤ off ∧ off < p1 - a.base + 2 * 2 ^ k then k + 1
              else a.page_states off) = a.page_states off ∨
              (p1 - a.base ≤ off ∧ off < p1 - a.base + 2 ^ (k + 1))
            by_cases hin : p1 - a.base ≤ off ∧ off < p1 - a.base + 2 * 2 ^ k
            · exact Or.inr (by omega)
            · rw [if_neg hin]
              exact Or.inl rfl
          · intro k2 p2 hk2 halign2 hG1 hG2
            have hp2top : p2 < a.top := by
              have := hG1.2.1
              have := Nat.two_pow_pos k2
              omega
            obtain ⟨hk2k, hside⟩ := honly k2 hk2 p2 hp2top halign2 hG1 hG2
            subst hk2k
            refine ⟨pfn, by omega, by omega, ?_⟩
            rcases hside with hq | hq
            · exact Or.inl (by omega)
            · exact Or.inr (by omega)
        exact ih p1 a1 a' h (by rw [htop1]; exact htop) (k + 1) hk' hB'
          (by rw [hbase1]; omega) (by rw [hbase1]; omega) honly'

/-- After clearing ALLOC over the freed block and running the coalescing
loop, no buddy pair remains, provided the pre-state had none. -/
theorem free_clear_no_pairs {a : mem_area} {pfn : Nat} {a2 : mem_area}
    (htopb : a.top < 2 ^ 63)
    (hpre : no_buddy_pairs a)
    (hbase : a.base ≤ pfn)
    (hguard : ∀ i, i < 2 ^ (a.page_states (pfn - a.base) &&& ORDER_MASK) →
      a.page_states (pfn - a.base + i) =
        ALLOC_MASK ||| (a.page_states (pfn - a.base) &&& ORDER_MASK))
    (halign : is_aligned_order pfn (a.page_states (pfn - a.base) &&& ORDER_MASK))
    (husable : usable_area_contains_pfn a
      (pfn + 2 ^ (a.page_states (pfn - a.base) &&& ORDER_MASK) - 1))
    (hfl : free_loop (pfn - a.base) 65 pfn
      { a with
        page_states := pstate_and a.page_states (pfn - a.base)
          (2 ^ (a.page_states (pfn - a.base) &&& ORDER_MASK)) 0xbf
        freelists := fl_update a.freelists
          (a.page_states (pfn - a.base) &&& ORDER_MASK)
          (pfn :: a.freelists (a.page_states (pfn - a.base) &&& ORDER_MASK)) }
      = some a2) :
    no_buddy_pairs a2 := by
  set k := a.page_states (pfn - a.base) &&& ORDER_MASK with hkdef
  have hk : k < 64 := and_ORDER_MASK_lt _
  have hposk : 0 < 2 ^ k := Nat.two_pow_pos k
  set a1 : mem_area :=
    { a with
      page_states := pstate_and a.page_states (pfn - a.base) (2 ^ k) 0xbf
      freelists := fl_update a.freelists k (pfn :: a.freelists k) } with ha1
  have hB : free_block_at a1 k pfn := by
    refine ⟨hbase, ?_, halign, ?_⟩
    · show pfn + 2 ^ k ≤ a.top
      have := husable.2
      omega
    · intro i hi
      show pstate_and a.page_states (pfn - a.base) (2 ^ k) 0xbf
        (pfn - a.base + i) = k
      simp only [pstate_and]
      rw [if_pos (by omega), hguard i hi]
      exact clear_alloc k hk
  have hout : ∀ off, a1.page_states off = a.page_states off ∨
      (pfn - a.base ≤ off ∧ off < pfn - a.base + 2 ^ k) := by
    intro off
    show (pstate_and a.page_states (pfn - a.base) (2 ^ k) 0xbf off =
      a.page_states off) ∨ _
    simp only [pstate_and]
    by_cases hin : pfn - a.base ≤ off ∧ off < pfn - a.base + 2 ^ k
    · exact Or.inr hin
    · rw [if_neg hin]
      exact Or.inl rfl
  have hold : ∀ k2 p2, k2 < NLISTS → p2 % 2 ^ (k2 + 1) = 0 →
      free_block_at a k2 p2 → free_block_at a k2 (p2 + 2 ^ k2) →
      ∃ f, pfn ≤ f ∧ f < pfn + 2 ^ k ∧
        ((p2 ≤ f ∧ f < p2 + 2 ^ k2) ∨
         (p2 + 2 ^ k2 ≤ f ∧ f < p2 + 2 ^ k2 + 2 ^ k2)) := by
    intro k2 p2 hk2 halign2 hG1 hG2
    exact absurd ⟨halign2, hG1, hG2⟩
      (hpre k2 hk2 p2 (by have := hG1.2.1
                          have := Nat.two_pow_pos k2
                          omega))
  have honly : only_pair a1 k pfn :=
    only_pair_localized (show a1.base = a.base from rfl)
      (show a1.top = a.top from rfl) hB hout hold
  exact free_loop_no_pairs 65 pfn a1 a2 hfl htopb k hk hB
    (by show pfn ≤ a.base + (pfn - a.base); omega)
    (by show a.base + (pfn - a.base) < pfn + 2 ^ k; omega) honly

/-- C5: after any free_pages call that returns, no pair of adjacent free
buddies of equal order exists in any area, provided the pre-state had none
(as every reachable state does) and every area's top PFN is within the
bound the initialisation enforces. -/
theorem C5_free_pages_maximal_coalescing (s : AllocState) (mem : Nat)
    (s' : AllocState)
    (htop : ∀ i, i < MAX_AREAS → (s.areas i).top < 2 ^ 63)
    (hpre : ∀ i, i < MAX_AREAS → no_buddy_pairs (s.areas i))
    (h : free_pages s mem = some s') :
    ∀ i, i < MAX_AREAS → no_buddy_pairs (s'.areas i) := by
  unfold free_pages _free_pages at h
  by_cases hm : mem = 0
  · rw [if_pos hm] at h
    obtain rfl := Option.some.inj h
    exact hpre
  · rw [if_neg hm] at h
    by_cases hali : mem % PAGE_SIZE = 0
    · rw [if_pos hali] at h
      dsimp only at h
      cases hga : get_area s (virt_to_pfn mem) with
      | none => rw [hga] at h; exact Option.noConfusion h
      | some ai =>
        rw [hga] at h
        dsimp only at h
        repeat' split at h
        any_goals exact Option.noConfusion h
        rename_i hps hord hal2 husable hguard xo a2 hfl
        obtain rfl := Option.some.inj h
        intro i hi
        rw [set_area_areas]
        by_cases hij : i = ai
        · rw [if_pos hij]
          have hu := get_area_usable hga
          exact free_clear_no_pairs (htop ai hu.1) (hpre ai hu.1) hu.2.1
            hguard hal2 husable hfl
        · rw [if_neg hij]
          exact hpre i hi
    · rw [if_neg hali] at h
      exact Option.noConfusion h

set_option maxRecDepth 8000 in
/-- Witness for C5: freeing the allocated order-0 frame 0x101 of `uS`
coalesces all the way back to a single order-4 block and leaves no pair. -/
theorem C5_free_pages_maximal_coalescing_witness :
    (∀ i, i < MAX_AREAS → (uS.areas i).top < 2 ^ 63) ∧
    (∀ i, i < MAX_AREAS → no_buddy_pairs (uS.areas i)) ∧
    (∀ i, i < MAX_AREAS →
      no_buddy_pairs (((free_pages uS (pfn_to_virt 0x101)).getD uS).areas i)) :=
  ⟨by decide, by decide,
    C5_free_pages_maximal_coalescing uS (pfn_to_virt 0x101) _
      (by decide) (by decide) rfl⟩


/-- Order 0 always fits strictly below top. -/
theorem order_fits_zero {i top : Nat} (h : i < top) : order_fits i top 0 :=
  ⟨Nat.mod_one i, by omega⟩

/-- order_fits is downward closed in the order. -/
theorem order_fits_mono {i top k j : Nat} (h : order_fits i top k) (hj : j ≤ k) :
    order_fits i top j := by
  obtain ⟨h1, h2⟩ := h
  constructor
  · exact Nat.mod_eq_zero_of_dvd ((pow_dvd_pow 2 hj).trans
      (Nat.dvd_of_mod_eq_zero h1))
  · have := Nat.pow_le_pow_right (by norm_num : 1 ≤ 2) hj
    omega

/-- A fitting order is below 52 when top is below 2^52. -/
theorem order_fits_bound {i top k : Nat} (h : order_fits i top k)
    (htop : top < 2 ^ 52) : k < 52 := by
  by_contra hge
  have : (2:Nat) ^ 52 ≤ 2 ^ k := Nat.pow_le_pow_right (by norm_num) (by omega)
  have := h.2
  omega

/-- greedyOrderAux yields a fitting order. -/
theorem greedyOrderAux_fits {i top : Nat} (h : i < top) :
    ∀ m, order_fits i top (greedyOrderAux i top m) := by
  intro m
  induction m with
  | zero => exact order_fits_zero h
  | succ m ih =>
    unfold greedyOrderAux
    by_cases hc : i % 2 ^ (m + 1) = 0 ∧ i + 2 ^ (m + 1) ≤ top
    · rw [if_pos hc]
      exact hc
    · rw [if_neg hc]
      exact ih

/-- greedyOrderAux dominates every fitting order up to its scan bound. -/
theorem greedyOrderAux_max {i top : Nat} :
    ∀ m j, j ≤ m → order_fits i top j → j ≤ greedyOrderAux i top m := by
  intro m
  induction m with
  | zero => intro j hj _; omega
  | succ m ih =>
    intro j hj hfit
    unfold greedyOrderAux
    by_cases hc : i % 2 ^ (m + 1) = 0 ∧ i + 2 ^ (m + 1) ≤ top
    · rw [if_pos hc]
      exact hj
    · rw [if_neg hc]
      rcases Nat.lt_or_ge j (m + 1) with hlt | hge
      · exact ih j (by omega) hfit
      · exact absurd hfit (by have : j = m + 1 := by omega
                              subst this
                              exact hc)

/-- order_shrink succeeds below top and returns the largest order at most o
that fits (ignoring alignment). -/
theorem order_shrink_correct {i top : Nat} (h : i < top) :
    ∀ o, ∃ o1, order_shrink i top o = some o1 ∧ o1 ≤ o ∧
      i + 2 ^ o1 ≤ top ∧ ∀ j, j ≤ o → i + 2 ^ j ≤ top → j ≤ o1 := by
  intro o
  induction o with
  | zero =>
    refine ⟨0, ?_, Nat.le_refl 0, by omega, fun j hj _ => hj⟩
    unfold order_shrink
    rw [if_neg (by omega)]
  | succ o ih =>
    unfold order_shrink
    by_cases hc : top < i + 2 ^ (o + 1)
    · rw [if_pos hc]
      obtain ⟨o1, he, hle, hfit, hmax⟩ := ih
      refine ⟨o1, he, by omega, hfit, ?_⟩
      intro j hj hjfit
      rcases Nat.lt_or_ge j (o + 1) with hlt | hge
      · exact hmax j (by omega) hjfit
      · have : j = o + 1 := by omega
        subst this
        omega
    · rw [if_neg hc]
      exact ⟨o + 1, rfl, Nat.le_refl _, by omega, fun j hj _ => hj⟩

/-- order_grow climbs to the maximum fitting order, given enough fuel. -/
theorem order_grow_correct {i top : Nat} :
    ∀ fuel o, order_fits i top o → (∀ j, order_fits i top j → j ≤ o + fuel) →
    order_fits i top (order_grow i top fuel o) ∧
    ∀ j, order_fits i top j → j ≤ order_grow i top fuel o := by
  intro fuel
  induction fuel with
  | zero =>
    intro o ho hbound
    refine ⟨ho, fun j hj => ?_⟩
    have := hbound j hj
    unfold order_grow
    omega
  | succ fuel ih =>
    intro o ho hbound
    unfold order_grow
    by_cases hc : i % 2 ^ (o + 1) = 0 ∧ i + 2 ^ (o + 1) ≤ top
    · rw [if_pos hc]
      exact ih (o + 1) hc (fun j hj => by have := hbound j hj; omega)
    · rw [if_neg hc]
      refine ⟨ho, fun j hj => ?_⟩
      by_contra hgt
      exact hc (order_fits_mono hj (by omega))

/-- The shrink-then-grow order computation of the seeding loop equals the
greedy order, whenever i is below top, i is aligned to the carried order,
and top is within the initialisation bound. -/
theorem shrink_grow_eq_greedy {i top o : Nat} (h : i < top)
    (halign : i % 2 ^ o = 0) (htop : top < 2 ^ 52) :
    ∃ o1, order_shrink i top o = some o1 ∧
      order_grow i top 64 o1 = greedyOrder i top := by
  obtain ⟨o1, he, hle, hfit, hmax⟩ := order_shrink_correct h o
  refine ⟨o1, he, ?_⟩
  have ho1 : order_fits i top o1 :=
    ⟨Nat.mod_eq_zero_of_dvd ((pow_dvd_pow 2 hle).trans
      (Nat.dvd_of_mod_eq_zero halign)), hfit⟩
  obtain ⟨hg1, hg2⟩ := order_grow_correct 64 o1 ho1
    (fun j hj => by have := order_fits_bound hj htop; omega)
  have ha1 := greedyOrderAux_fits h 63
  have hle1 : order_grow i top 64 o1 ≤ greedyOrder i top :=
    greedyOrderAux_max 63 _ (by have := order_fits_bound hg1 htop; omega) hg1
  have hle2 : greedyOrder i top ≤ order_grow i top 64 o1 := hg2 _ ha1
  omega

/-- The greedy order fits, and one order higher does not: maximality. -/
theorem greedyOrder_spec {i top : Nat} (h : i < top) (htop : top < 2 ^ 52) :
    order_fits i top (greedyOrder i top) ∧
    ¬ order_fits i top (greedyOrder i top + 1) := by
  refine ⟨greedyOrderAux_fits h 63, fun hc => ?_⟩
  have hb := order_fits_bound hc htop
  have hmax := greedyOrderAux_max 63 (greedyOrder i top + 1) (by omega) hc
  have heq : greedyOrderAux i top 63 = greedyOrder i top := rfl
  omega

/-- The greedy decomposition tiles [i, top): it covers every PFN of the
range, its blocks are in strictly increasing disjoint order, and each block
is aligned, fits, starts at or after i, and is maximal. -/
theorem greedyDecomp_props {top : Nat} (htop : top < 2 ^ 52) :
    ∀ fuel i, top ≤ i + fuel →
    (∀ p, i ≤ p → p < top → ∃ bk ∈ greedyDecomp fuel i top,
      bk.1 ≤ p ∧ p < bk.1 + 2 ^ bk.2) ∧
    (∀ bk ∈ greedyDecomp fuel i top, i ≤ bk.1 ∧ bk.1 + 2 ^ bk.2 ≤ top ∧
      bk.1 % 2 ^ bk.2 = 0 ∧
      ¬(bk.1 % 2 ^ (bk.2 + 1) = 0 ∧ bk.1 + 2 ^ (bk.2 + 1) ≤ top)) ∧
    (greedyDecomp fuel i top).Pairwise (fun x y => x.1 + 2 ^ x.2 ≤ y.1) := by
  intro fuel
  induction fuel with
  | zero =>
    intro i hfuel
    refine ⟨fun p hp1 hp2 => absurd hp2 (by omega), ?_, ?_⟩
    · intro bk hbk
      exact absurd hbk (by simp [greedyDecomp])
    · simp [greedyDecomp]
  | succ fuel ih =>
    intro i hfuel
    by_cases hlt : i < top
    · have hg := greedyOrder_spec hlt htop
      have hpos : 0 < 2 ^ greedyOrder i top := Nat.two_pow_pos _
      obtain ⟨ihc, ihb, ihp⟩ := ih (i + 2 ^ greedyOrder i top) (by omega)
      have hD : greedyDecomp (fuel + 1) i top =
          (i, greedyOrder i top) ::
            greedyDecomp fuel (i + 2 ^ greedyOrder i top) top := by
        unfold greedyDecomp
        rw [if_pos hlt]
        cases fuel <;> rfl
      rw [hD]
      refine ⟨?_, ?_, ?_⟩
      · intro p hp1 hp2
        by_cases hin : p < i + 2 ^ greedyOrder i top
        · exact ⟨(i, greedyOrder i top), by simp, hp1, hin⟩
        · obtain ⟨bk, hbk, hb1, hb2⟩ := ihc p (by omega) hp2
          exact ⟨bk, by simp [hbk], hb1, hb2⟩
      · intro bk hbk
        rcases List.mem_cons.mp hbk with he | hm
        · subst he
          exact ⟨Nat.le_refl i, hg.1.2, hg.1.1, hg.2⟩
        · obtain ⟨h1, h2, h3, h4⟩ := ihb bk hm
          exact ⟨by omega, h2, h3, h4⟩
      · refine List.Pairwise.cons ?_ ihp
        intro y hy
        exact (ihb y hy).1
    · unfold greedyDecomp
      rw [if_neg hlt]
      refine ⟨fun p hp1 hp2 => absurd hp2 (by omega), ?_, ?_⟩
      · intro bk hbk
        exact absurd hbk (by simp)
      · simp

/-- seed does not change the geometry of the area. -/
theorem seed_geom : ∀ (D : List (Nat × Nat)) (a : mem_area),
    (seed a D).base = a.base ∧ (seed a D).top = a.top := by
  intro D
  induction D with
  | nil => exact fun a => ⟨rfl, rfl⟩
  | cons bk rest ih =>
    intro a
    exact ih _

/-- A byte outside every seeded block keeps its value. -/
theorem seed_untouched : ∀ (D : List (Nat × Nat)) (a : mem_area) (off : Nat),
    (∀ bk ∈ D, ¬(bk.1 - a.base ≤ off ∧ off < bk.1 - a.base + 2 ^ bk.2)) →
    (seed a D).page_states off = a.page_states off := by
  intro D
  induction D with
  | nil => exact fun a off _ => rfl
  | cons bk rest ih =>
    intro a off hout
    have h1 := ih
      { a with
        page_states := pstate_write a.page_states (bk.1 - a.base) (2 ^ bk.2) bk.2
        freelists := fl_update a.freelists bk.2 (bk.1 :: a.freelists bk.2) }
      off (fun bk2 h2 => hout bk2 (List.mem_cons_of_mem _ h2))
    show (seed _ rest).page_states off = _
    rw [h1]
    show pstate_write _ _ _ _ off = _
    simp only [pstate_write]
    rw [if_neg (hout bk (List.mem_cons_self _ _))]

/-- seed only prepends to freelists: membership is preserved. -/
theorem seed_fl_mono : ∀ (D : List (Nat × Nat)) (a : mem_area) (k x : Nat),
    x ∈ a.freelists k → x ∈ (seed a D).freelists k := by
  intro D
  induction D with
  | nil => exact fun a k x h => h
  | cons bk rest ih =>
    intro a k x hx
    apply ih
    show x ∈ fl_update a.freelists bk.2 (bk.1 :: a.freelists bk.2) k
    unfold fl_update
    by_cases hk : k = bk.2
    · subst hk
      rw [if_pos rfl]
      exact List.mem_cons_of_mem _ hx
    · rw [if_neg hk]
      exact hx

/-- Every seeded block ends with its header on the freelist of its order. -/
theorem seed_fl_mem : ∀ (D : List (Nat × Nat)) (a : mem_area) (bk : Nat × Nat),
    bk ∈ D → bk.1 ∈ (seed a D).freelists bk.2 := by
  intro D
  induction D with
  | nil => intro a bk h; exact absurd h (List.not_mem_nil bk)
  | cons bk0 rest ih =>
    intro a bk hbk
    rcases List.mem_cons.mp hbk with he | hm
    · subst he
      show bk.1 ∈ (seed _ rest).freelists bk.2
      apply seed_fl_mono
      show bk.1 ∈ fl_update a.freelists bk.2 (bk.1 :: a.freelists bk.2) bk.2
      unfold fl_update
      rw [if_pos rfl]
      exact List.mem_cons_self _ _
    · exact ih _ bk hm

/-- Every seeded block ends with all its metadata bytes equal to its order,
provided the blocks are disjoint and within the area. -/
theorem seed_block_meta : ∀ (D : List (Nat × Nat)) (a : mem_area),
    D.Pairwise (fun x y => x.1 + 2 ^ x.2 ≤ y.1) →
    (∀ bk ∈ D, a.base ≤ bk.1) →
    ∀ bk ∈ D, ∀ j, j < 2 ^ bk.2 →
      (seed a D).page_states (bk.1 - a.base + j) = bk.2 := by
  intro D
  induction D with
  | nil => intro a _ _ bk h; exact absurd h (List.not_mem_nil bk)
  | cons bk0 rest ih =>
    intro a hpw hbase bk hbk j hj
    have hpw0 := List.pairwise_cons.mp hpw
    rcases List.mem_cons.mp hbk with he | hm
    · subst he
      show (seed _ rest).page_states (bk.1 - a.base + j) = bk.2
      rw [seed_untouched rest _ _ ?_]
      · show pstate_write _ _ _ _ (bk.1 - a.base + j) = bk.2
        simp only [pstate_write]
        rw [if_pos (by omega)]
      · intro bk2 h2 hin
        have hsep := hpw0.1 bk2 h2
        have hb0 := hbase bk (by simp)
        have hb2 := hbase bk2 (by simp [h2])
        have hrec : ({ a with
          page_states := pstate_write a.page_states (bk.1 - a.base) (2 ^ bk.2) bk.2
          freelists := fl_update a.freelists bk.2 (bk.1 :: a.freelists bk.2) } :
            mem_area).base = a.base := rfl
        omega
    · have := ih { a with
        page_states := pstate_write a.page_states (bk0.1 - a.base) (2 ^ bk0.2) bk0.2
        freelists := fl_update a.freelists bk0.2 (bk0.1 :: a.freelists bk0.2) }
        hpw0.2 (fun bk2 h2 => hbase bk2 (by simp [h2])) bk hm j hj
      exact this

/-- The seeding loop of _page_alloc_init_area computes exactly the seeding
of the greedy decomposition: a refinement of the loop (shrink, grow, write,
link, advance) to the spec's greedy description. -/
theorem init_loop_eq : ∀ fuel i o (a : mem_area),
    a.top < 2 ^ 52 → i % 2 ^ o = 0 → a.top < i + fuel → 1 ≤ fuel →
    init_loop fuel i o a = some (seed a (greedyDecomp fuel i a.top)) := by
  intro fuel
  induction fuel with
  | zero => intro i o a _ _ _ hfe; omega
  | succ fuel ih =>
    intro i o a htop52 halign hfuel _
    unfold init_loop
    by_cases hlt : i < a.top
    · rw [if_pos hlt]
      obtain ⟨o1, hsh, hgr⟩ := shrink_grow_eq_greedy hlt halign htop52
      rw [hsh]
      dsimp only
      rw [hgr]
      have hfit := (greedyOrder_spec hlt htop52).1
      have hbound := order_fits_bound hfit htop52
      have hN : NLISTS = 52 := rfl
      rw [if_pos (by omega)]
      have hpos : 0 < 2 ^ greedyOrder i a.top := Nat.two_pow_pos _
      have hD : greedyDecomp (fuel + 1) i a.top =
          (i, greedyOrder i a.top) ::
            greedyDecomp fuel (i + 2 ^ greedyOrder i a.top) a.top := by
        unfold greedyDecomp
        rw [if_pos hlt]
        cases fuel <;> rfl
      rw [hD]
      exact ih (i + 2 ^ greedyOrder i a.top) (greedyOrder i a.top)
        { a with
          page_states := pstate_write a.page_states (i - a.base)
            (2 ^ greedyOrder i a.top) (greedyOrder i a.top)
          freelists := fl_update a.freelists (greedyOrder i a.top)
            (i :: a.freelists (greedyOrder i a.top)) }
        htop52 (by rw [Nat.add_mod_right]; exact hfit.1)
        (by show a.top < i + 2 ^ greedyOrder i a.top + fuel; omega)
        (by omega)
    · rw [if_neg hlt]
      have hD : greedyDecomp (fuel + 1) i a.top = [] := by
        unfold greedyDecomp
        rw [if_neg hlt]
      rw [hD]
      rfl

/-- C6: a successful _page_alloc_init_area seeds exactly the greedy
decomposition of the usable range [base, top): the decomposition's blocks
are pairwise disjoint and cover every usable PFN, and each block is
naturally aligned, has all its metadata bytes equal to its order (which is
below NLISTS), has its header linked in the freelist of its order, and
cannot be grown to a larger aligned block still fitting below top. -/
theorem C6_init_area_greedy_decomposition (s : AllocState) (n start top : Nat)
    (s' : AllocState) (h : _page_alloc_init_area s n start top = some s') :
    (s'.areas n).base = start + table_size start top ∧
    (s'.areas n).top = top ∧
    (∀ p, (s'.areas n).base ≤ p → p < top →
      ∃ bk ∈ greedyDecomp (top - (start + table_size start top) + 1)
        (start + table_size start top) top, bk.1 ≤ p ∧ p < bk.1 + 2 ^ bk.2) ∧
    (greedyDecomp (top - (start + table_size start top) + 1)
      (start + table_size start top) top).Pairwise
      (fun x y => x.1 + 2 ^ x.2 ≤ y.1) ∧
    (∀ bk ∈ greedyDecomp (top - (start + table_size start top) + 1)
        (start + table_size start top) top,
      (s'.areas n).base ≤ bk.1 ∧ bk.1 + 2 ^ bk.2 ≤ top ∧
      bk.1 % 2 ^ bk.2 = 0 ∧ bk.2 < NLISTS ∧
      (∀ j, j < 2 ^ bk.2 →
        (s'.areas n).page_states (bk.1 - (s'.areas n).base + j) = bk.2) ∧
      bk.1 ∈ (s'.areas n).freelists bk.2 ∧
      ¬(bk.1 % 2 ^ (bk.2 + 1) = 0 ∧ bk.1 + 2 ^ (bk.2 + 1) ≤ top)) := by
  unfold _page_alloc_init_area at h
  dsimp only at h
  repeat' split at h
  any_goals exact Option.noConfusion h
  rename_i a1 hfl
  have htopbnd : top < 2 ^ (BITS_PER_LONG - PAGE_SHIFT) := by assumption
  have h52 : (2:Nat) ^ (BITS_PER_LONG - PAGE_SHIFT) = 2 ^ 52 := rfl
  have hN : NLISTS = 52 := rfl
  set base := start + table_size start top with hbase
  set a0 : mem_area :=
    { states_pfn := start, base := base, top := top,
      page_states := fun _ => 0, freelists := fun _ => [] } with ha0
  set fuel := top - base + 1 with hfuelv
  have hloop := init_loop_eq fuel base 0 a0
    (by show top < 2 ^ 52; omega)
    (Nat.mod_one base) (by show top < base + (top - base + 1); omega)
    (by omega)
  rw [hfl] at hloop
  obtain rfl := Option.some.inj hloop.symm
  have hs' := (Option.some.inj h).symm
  have hsn : s'.areas n = seed a0 (greedyDecomp fuel base top) := by
    rw [hs']
    show (if n = n then seed a0 (greedyDecomp fuel base top)
      else s.areas n) = seed a0 (greedyDecomp fuel base top)
    exact if_pos rfl
  rw [hsn]
  have hgeo := seed_geom (greedyDecomp fuel base top) a0
  obtain ⟨hcov, hblk, hpw⟩ := @greedyDecomp_props top
    (by omega) fuel base (by omega)
  refine ⟨hgeo.1, hgeo.2, ?_, hpw, ?_⟩
  · intro p hp1 hp2
    exact hcov p (by rw [hgeo.1] at hp1; exact hp1) hp2
  · intro bk hbk
    obtain ⟨hb1, hb2, hb3, hb4⟩ := hblk bk hbk
    have hbnd := @order_fits_bound bk.1 top bk.2 ⟨hb3, hb2⟩
      (by omega)
    refine ⟨by rw [hgeo.1]; exact hb1, hb2, hb3, by omega, ?_, ?_, hb4⟩
    · intro j hj
      have := seed_block_meta (greedyDecomp fuel base top) a0 hpw
        (fun bk2 h2 => (hblk bk2 h2).1) bk hbk j hj
      rw [hgeo.1]
      exact this
    · exact seed_fl_mem _ a0 bk hbk

/-- Witness for C6: initialising area 0 of the empty allocator over PFNs
[0x100, 0x110) succeeds; the usable range starts at 0x101 (one metadata
page) and ends at 0x110, as the applied theorem states. -/
theorem C6_init_area_greedy_decomposition_witness :
    _page_alloc_init_area S0 0 256 272 = some C6res ∧
    (C6res.areas 0).base = 257 ∧ (C6res.areas 0).top = 272 := by
  have hc := C6_init_area_greedy_decomposition S0 0 256 272 C6res rfl
  exact ⟨rfl, hc.1.trans (by decide), hc.2.1⟩

end AllocPage
